import Mathlib

/-!
Verification of the eSIM itinerary optimizer.

This file gives a shallow embedding of the two optimizer cores of the
repository and proves / refutes the frozen claims about them:

* `optimize_itinerary.py` — the timeline feasibility solver
  (`evaluate_itinerary`, `solve_segment`, `rollback`) over an ordered list
  of itinerary legs; and
* `optimize_esim_plans_multi_region.py` — the per-purchase cost accountant
  (`evaluate_combination`) and the bounded top-N retention loop of `main`.

Python numbers (int/float) are modelled as exact rationals `ℚ`; Python
dicts mutated in place become records threaded through explicit state;
the per-plan working copies are a `List PlanState` mutated positionally by
`List.set`, exactly mirroring the aliasing of the source's `plans` list.
-/

namespace Esim

/-! ## Data model: `optimize_itinerary.py`

A validated plan record as it enters `evaluate_itinerary` (after `main`'s
filter on lines 97-107: `usd_price` present, `data_mb > 0`,
`validity_days > 0`, parsed `coverage`). -/

structure Plan where
  provider_id : String
  plan_name : String
  usd_price : ℚ
  usd_promo_price : Option ℚ
  data_mb : ℚ
  validity_days : ℚ
  coverage : List String
  new_user_only : Bool
  /-- `data_cap_per == "day"` (line 227). -/
  data_cap_per_day : Bool
  provider_promo_type : String
deriving DecidableEq, Repr

/-- The mutable working copy `pc = p.copy()` built on lines 211-231,
plus the two fields the solver mutates (`remaining_mb`, `_start_time`). -/
structure PlanState where
  base : Plan
  effective_mb : ℚ
  remaining_mb : ℚ
  effective_days : ℚ
  daily_cap : Option ℚ
  /-- the `_start_time` key; absent = `none`. -/
  start_time : Option ℚ
deriving DecidableEq, Repr

instance : Inhabited Plan :=
  ⟨{ provider_id := "", plan_name := "", usd_price := 0, usd_promo_price := none,
     data_mb := 0, validity_days := 0, coverage := [], new_user_only := false,
     data_cap_per_day := false, provider_promo_type := "" }⟩

instance : Inhabited PlanState :=
  ⟨{ base := default, effective_mb := 0, remaining_mb := 0, effective_days := 0,
     daily_cap := none, start_time := none }⟩

/-- One itinerary step (an element of the `ITINERARY` constant). -/
structure Step where
  days : ℚ
  mb : ℚ
  slug : String
deriving DecidableEq, Repr

/-- One segment built on lines 236-246 (the source dict's `end` key is
rendered `stop` because `end` is a Lean keyword). -/
structure Seg where
  slug : String
  start : ℚ
  stop : ℚ
  mb_needed : ℚ
  days : ℚ
deriving DecidableEq, Repr

/-- Lines 236-246: cut the itinerary into contiguous segments. -/
def mk_segments (itin : List Step) : List Seg :=
  (itin.foldl
    (fun (acc : List Seg × ℚ) st =>
      (acc.1 ++ [{ slug := st.slug, start := acc.2, stop := acc.2 + st.days,
                   mb_needed := st.mb, days := st.days }],
       acc.2 + st.days))
    ([], 0)).1

/-- Lines 211-231: build the working copy of one plan.  `daily_usage_rate`
is the single rate `R` derived from the whole itinerary (lines 201-202). -/
def mk_state (daily_usage_rate : ℚ) (p : Plan) : PlanState :=
  let effective_mb := min p.data_mb (p.validity_days * daily_usage_rate)
  let effective_days := min p.validity_days (p.data_mb / daily_usage_rate)
  { base := p
    effective_mb := effective_mb
    remaining_mb := effective_mb
    effective_days := effective_days
    daily_cap := if p.data_cap_per_day then some p.data_mb else none
    start_time := none }

/-- Lines 204-231: the setup loop.  `seen` holds the providers that have
already contributed a `new_user_only` plan (the source's
`provider_new_user_count[pid] > 0` test is membership in that set);
a second such plan from the same provider aborts with `none`
(the early `return {"valid": False, ...}` on line 208). -/
def setup_plans (daily_usage_rate : ℚ) : List Plan → List String → Option (List PlanState)
  | [], _ => some []
  | p :: rest, seen =>
    if p.new_user_only ∧ p.provider_id ∈ seen then none
    else
      let seen' := if p.new_user_only then p.provider_id :: seen else seen
      (setup_plans daily_usage_rate rest seen').map (fun l => mk_state daily_usage_rate p :: l)

/-! ## Timeline feasibility solver (`solve_segment`, lines 317-392) -/

/-- Lines 337-353: the maximum contribution of one candidate plan to the
current segment, `none` when the overlap is empty (the `continue`).
Python truthiness of `p.get("daily_cap")` (lines 348, 371) is
`daily_cap.getD 0 ≠ 0`. -/
def contrib_of (seg : Seg) (p : PlanState) : Option ℚ :=
  let starts_at := p.start_time.getD seg.start
  let expires_at := starts_at + p.effective_days
  let overlap_start := max starts_at seg.start
  let overlap_stop := min expires_at seg.stop
  let overlap_days := max 0 (overlap_stop - overlap_start)
  if overlap_days ≤ 0 then none
  else if p.daily_cap.getD 0 ≠ 0 then some (p.daily_cap.getD 0 * overlap_days)
  else some p.remaining_mb

/-- Lines 326 and 336-353, indices from `i` up: eligible candidates
(coverage test, line 326) with their maximum contributions (skipping
empty overlaps, the `continue` on line 346), in plan-list order. -/
def plan_contribs_from (seg : Seg) : ℕ → List PlanState → List (ℕ × ℚ)
  | _, [] => []
  | i, p :: rest =>
    if seg.slug ∈ p.base.coverage then
      match contrib_of seg p with
      | some c => (i, c) :: plan_contribs_from seg (i + 1) rest
      | none => plan_contribs_from seg (i + 1) rest
    else plan_contribs_from seg (i + 1) rest

/-- Lines 326 and 336-353: eligible candidates with their maximum
contributions, as positions into the shared `plans` list (the source
aliases the dicts; we use indices). -/
def plan_contribs (seg : Seg) (plans : List PlanState) : List (ℕ × ℚ) :=
  plan_contribs_from seg 0 plans

/-- Lines 329-333: `sort_key`.  `started = 1 if "_start_time" in p else 0`,
key `(-started, p["validity_days"])` (the local `rem_mb = item[1]` is
unused in the source as well). -/
def sort_key (plans : List PlanState) (item : ℕ × ℚ) : ℚ × ℚ :=
  let p := plans.getD item.1 default
  ((if p.start_time.isSome then -1 else 0), p.base.validity_days)

/-- Lexicographic `≤` on sort keys, i.e. Python tuple comparison. -/
def key_le (a b : ℚ × ℚ) : Bool :=
  decide (a.1 < b.1 ∨ (a.1 = b.1 ∧ a.2 ≤ b.2))

/-- Stable insertion used to model Python's stable `list.sort`: a later
element is placed after all earlier elements whose key is `≤` its key. -/
def stable_insert (le : α → α → Bool) (x : α) : List α → List α
  | [] => [x]
  | y :: ys => if le x y ∧ ¬ le y x then x :: y :: ys else y :: stable_insert le x ys

/-- Python's stable `list.sort(key=...)` (line 357), modelled as stable
insertion sort: elements are inserted in original order, each going after
every already-placed element of equal key. -/
def stable_sort (le : α → α → Bool) (l : List α) : List α :=
  l.foldl (fun acc x => stable_insert le x acc) []

/-- Line 357: `plan_contribs.sort(key=sort_key)`. -/
def sort_contribs (plans : List PlanState) (contribs : List (ℕ × ℚ)) : List (ℕ × ℚ) :=
  stable_sort (fun x y => key_le (sort_key plans x) (sort_key plans y)) contribs

/-- A rollback-log entry: `(plan position, field, previous value)` as on
lines 369 and 373. -/
inductive RbOp
  | start
  | dec (v : ℚ)
deriving DecidableEq, Repr

/-- Write the `_start_time` field (Python `p["_start_time"] = t` /
`del p["_start_time"]`). -/
def set_start (t : Option ℚ) (p : PlanState) : PlanState :=
  { p with start_time := t }

/-- `p["remaining_mb"] += v` (rollback, line 392). -/
def add_remaining (v : ℚ) (p : PlanState) : PlanState :=
  { p with remaining_mb := p.remaining_mb + v }

/-- `p["remaining_mb"] -= v` (line 372). -/
def sub_remaining (v : ℚ) (p : PlanState) : PlanState :=
  { p with remaining_mb := p.remaining_mb - v }

/-- Lines 367-373: the state mutations of one loop iteration — set
`_start_time` if absent, then decrement `remaining_mb` unless the plan is
per-day capped; both are appended to the `consumed_ops` log. -/
def consume_step (seg_start amount : ℚ) (i : ℕ) (plans : List PlanState) :
    List PlanState × List (ℕ × RbOp) :=
  if (plans.getD i default).start_time = none then
    -- `p["_start_time"] = seg["start"]` first, then re-read the plan for
    -- the `remaining_mb` decrement, as the source mutates one alias.
    if (((plans.set i (set_start (some seg_start) (plans.getD i default))).getD
          i default).daily_cap.getD 0 = 0) then
      ((plans.set i (set_start (some seg_start) (plans.getD i default))).set i
         (sub_remaining amount
           ((plans.set i (set_start (some seg_start) (plans.getD i default))).getD
             i default)),
       [(i, RbOp.start), (i, RbOp.dec amount)])
    else
      (plans.set i (set_start (some seg_start) (plans.getD i default)), [(i, RbOp.start)])
  else
    if (plans.getD i default).daily_cap.getD 0 = 0 then
      (plans.set i (sub_remaining amount (plans.getD i default)), [(i, RbOp.dec amount)])
    else (plans, [])

/-- Lines 359-375: the greedy consumption loop.  Returns the unmet
remainder `left_to_fill`, the mutated plan list and the `consumed_ops`
log (in chronological order). -/
def consume_loop (seg_start : ℚ) :
    ℚ → List (ℕ × ℚ) → List PlanState → ℚ × List PlanState × List (ℕ × RbOp)
  | left, [], plans => (left, plans, [])
  | left, (i, possible) :: rest, plans =>
    if left ≤ 0 then (left, plans, [])
    else
      let amount := min possible left
      let s2 := consume_step seg_start amount i plans
      let r := consume_loop seg_start (left - amount) rest s2.1
      (r.1, r.2.1, s2.2 ++ r.2.2)

/-- Lines 387-392: `rollback` — undo the logged mutations in reverse
chronological order. -/
def rollback (ops : List (ℕ × RbOp)) (plans : List PlanState) : List PlanState :=
  ops.reverse.foldl
    (fun pl oi =>
      let p := pl.getD oi.1 default
      match oi.2 with
      | RbOp.start => pl.set oi.1 (set_start none p)
      | RbOp.dec v => pl.set oi.1 (add_remaining v p))
    plans

/-- Lines 317-385: `solve_segment`, recursing over the remaining segments.
The boolean is the Python return value; the list is the (aliased, possibly
mutated) `plans` after the call. -/
def solve_segment : List Seg → List PlanState → Bool × List PlanState
  | [], plans => (true, plans)
  | seg :: rest, plans =>
    let contribs := plan_contribs seg plans
    if ((contribs.map Prod.snd).sum) < seg.mb_needed then (false, plans)
    else
      let r := consume_loop seg.start seg.mb_needed (sort_contribs plans contribs) plans
      if 1 < r.1 then (false, rollback r.2.2 r.2.1)
      else
        let rec_r := solve_segment rest r.2.1
        if rec_r.1 then (true, rec_r.2)
        else (false, rollback r.2.2 rec_r.2)

/-- Line 314-315: `check_timeline_validity`. -/
def check_timeline_validity (plans : List PlanState) (segments : List Seg) :
    Bool × List PlanState :=
  solve_segment segments plans

/-! ## Cost / result part of `evaluate_itinerary` (lines 253-312) -/

/-- Lines 254-288: total price with per-provider one-time promo gating.
`seen` holds the providers of already-processed plans whose promo type is
`one-time` (the source's `provider_seen_count[pid]`, which is `0` exactly
when `pid` is not in this list). -/
def itin_total_price : List PlanState → List String → ℚ
  | [], _ => 0
  | p :: rest, seen =>
    let reg := p.base.usd_price
    let promo := p.base.usd_promo_price
    let has_promo : Bool := match promo with | some pp => decide (pp < reg) | none => false
    let one_time : Bool := decide (p.base.provider_promo_type = "one-time")
    let apply_promo : Bool := has_promo && (!one_time || !(decide (p.base.provider_id ∈ seen)))
    let price := if apply_promo then promo.getD 0 else reg
    let seen' := if one_time then p.base.provider_id :: seen else seen
    price + itin_total_price rest seen'

/-- The dict returned by `evaluate_itinerary` (the fields the claims are
about; the invalid branches return `valid = false`, `ranking_cost = 0`). -/
structure ItinResult where
  valid : Bool
  ranking_cost : ℚ
  display_cost : ℚ
  activations : ℕ
  top_ups : ℤ
deriving DecidableEq, Repr

def invalid_itin : ItinResult :=
  { valid := false, ranking_cost := 0, display_cost := 0, activations := 0, top_ups := 0 }

/-- Lines 193-312: `evaluate_itinerary(combo_plans, hassle_penalty)`,
parametrised by the itinerary (the source reads the module constant
`ITINERARY`). -/
def evaluate_itinerary (itin : List Step) (combo_plans : List Plan)
    (hassle_penalty : ℚ) : ItinResult :=
  let total_mb_needed := (itin.map Step.mb).sum
  let total_duration := (itin.map Step.days).sum
  let daily_usage_rate := total_mb_needed / total_duration
  match setup_plans daily_usage_rate combo_plans [] with
  | none => invalid_itin
  | some plans =>
    let segments := mk_segments itin
    let tv := check_timeline_validity plans segments
    if tv.1 then
      let plansF := tv.2
      let total_price := itin_total_price plansF []
      let activations := ((plansF.map (fun p => p.base.provider_id)).dedup).length
      let top_ups : ℤ := (plansF.length : ℤ) - (activations : ℤ)
      let hassle_cost := ((plansF.length : ℚ) - 1) * hassle_penalty
      { valid := true
        ranking_cost := total_price + hassle_cost
        display_cost := total_price
        activations := activations
        top_ups := top_ups }
    else invalid_itin

/-! ## Data model: `optimize_esim_plans_multi_region.py`

A plan record as it reaches `evaluate_combination` (after the valid-plan
filter of `main`, lines 425-428). -/

structure MPlan where
  provider_id : String
  provider_name : String
  can_top_up : Bool
  new_user_only : Bool
  usd_promo_price : Option ℚ
  /-- `p.get("usd_price")`; the source reads it as `... or 0`. -/
  usd_price : Option ℚ
  hassle_penalty_per_account : Option ℚ
  provider_promo_type : String
  data_mb : ℚ
  validity_days : ℚ
deriving DecidableEq, Repr

/-- `p.get("usd_price") or 0` (line 218): `None` and `0` both give `0`. -/
def regular_of (p : MPlan) : ℚ := p.usd_price.getD 0

/-- The per-purchase quantities produced by the loop body of
`evaluate_combination` (lines 210-319) for one `(plan, qty)` pair. -/
structure PurchaseEval where
  plan_display_cost : ℚ
  accounts_needed : ℕ
  used_promo : Bool
  activations_for_plan : ℕ
  topups_for_plan : ℕ
  /-- `hassle_cost = plan_hassle * max(0, accounts_needed - 1)` (line 272). -/
  hassle_cost : ℚ
deriving DecidableEq, Repr

/-- Assemble the per-purchase figures: the cost/accounts/promo flag of the
taken pricing branch, the activation/top-up split of lines 277-283, and
the ranking-only hassle surcharge of line 272. -/
def mk_purchase_eval (cost : ℚ) (accounts : ℕ) (used_promo : Bool) (p : MPlan)
    (qty : ℕ) (plan_hassle : ℚ) : PurchaseEval :=
  { plan_display_cost := cost
    accounts_needed := accounts
    used_promo := used_promo
    activations_for_plan :=
      if p.can_top_up = true ∧ qty > 1 ∧ ¬ p.new_user_only = true then 1 else qty
    topups_for_plan :=
      if p.can_top_up = true ∧ qty > 1 ∧ ¬ p.new_user_only = true then qty - 1 else 0
    hassle_cost := plan_hassle * max 0 ((accounts : ℚ) - 1) }

/-- Lines 210-293: evaluate one purchase given the set `used` of providers
whose one-time promo has already been consumed (`provider_promo_used`);
returns the purchase's figures and the updated set.  The promo
eligibility test mirrors lines 222-233: a promo exists iff `promo_price`
is present and below the regular price, and for a one-time provider it is
only usable while the provider is not yet in `used`. -/
def eval_purchase (hassle_penalty : ℚ) (used : List String) (p : MPlan) (qty : ℕ) :
    PurchaseEval × List String :=
  if regular_of p = 0 ∧ (p.usd_promo_price = none ∨ p.usd_promo_price = some 0) then
    -- free plan (lines 236-243)
    (mk_purchase_eval 0 (if p.new_user_only then qty else 1) false p qty
       (p.hassle_penalty_per_account.getD hassle_penalty), used)
  else if (p.usd_promo_price.isSome = true ∧ p.usd_promo_price.getD 0 < regular_of p)
      ∧ (p.provider_promo_type = "one-time" → p.provider_id ∉ used) then
    -- promo branch (lines 244-259)
    if p.provider_promo_type = "one-time" then
      (mk_purchase_eval (p.usd_promo_price.getD 0 + regular_of p * ((qty : ℚ) - 1))
         (if p.new_user_only then qty else if p.can_top_up then 1 else qty) true p qty
         (p.hassle_penalty_per_account.getD hassle_penalty), p.provider_id :: used)
    else
      (mk_purchase_eval (p.usd_promo_price.getD 0 * (qty : ℚ))
         (if p.new_user_only then qty else if p.can_top_up then 1 else qty) true p qty
         (p.hassle_penalty_per_account.getD hassle_penalty), used)
  else
    -- no promo available, or already used for this provider (lines 260-269)
    (mk_purchase_eval (regular_of p * (qty : ℚ))
       (if p.new_user_only then qty else if p.can_top_up then 1 else qty) false p qty
       (p.hassle_penalty_per_account.getD hassle_penalty), used)

/-- The whole purchase loop of `evaluate_combination` (lines 210-319):
evaluate the ordered purchases threading `provider_promo_used`; returns
the per-purchase figures in order and the final consumed set. -/
def eval_purchases (hassle_penalty : ℚ) :
    List (MPlan × ℕ) → List String → List PurchaseEval × List String
  | [], used => ([], used)
  | (p, qty) :: rest, used =>
    let r := eval_purchase hassle_penalty used p qty
    let rr := eval_purchases hassle_penalty rest r.2
    (r.1 :: rr.1, rr.2)

/-- The dict returned by a successful `evaluate_combination`
(lines 329-341; the fields the claims are about). -/
structure CombResult where
  display_cost : ℚ
  ranking_cost : ℚ
  total_activations : ℕ
  total_topups : ℕ
  total_accounts : ℕ
  data : ℚ
  dur : ℚ
deriving DecidableEq, Repr

/-- Line 286-288: each purchase adds `1` activation, plus
`activations_for_plan - 1` more when that is `> 1`. -/
def activation_count (e : PurchaseEval) : ℕ :=
  1 + (if e.activations_for_plan > 1 then e.activations_for_plan - 1 else 0)

/-- Lines 188-343: `evaluate_combination`.  Returns `none` where the
source returns `None` (limits exceeded, or data/duration constraints not
met). -/
def evaluate_combination (purchases : List (MPlan × ℕ)) (trip_days total_data_mb : ℚ)
    (hassle_penalty : ℚ) (max_activations max_topups : ℕ) : Option CombResult :=
  let ev := eval_purchases hassle_penalty purchases []
  let evals := ev.1
  let display_cost := (evals.map PurchaseEval.plan_display_cost).sum
  let ranking_cost :=
    (evals.map (fun e => e.plan_display_cost + e.hassle_cost)).sum
  let total_activations := (evals.map activation_count).sum
  let total_topups := (evals.map PurchaseEval.topups_for_plan).sum
  let total_accounts := (evals.map PurchaseEval.accounts_needed).sum
  let data := (purchases.map (fun pq => pq.1.data_mb * (pq.2 : ℚ))).sum
  let dur := purchases.foldl (fun d pq => max d (pq.1.validity_days * (pq.2 : ℚ))) 0
  if total_activations > max_activations then none
  else if total_topups > max_topups then none
  else if data ≥ total_data_mb ∧ dur ≥ trip_days then
    some { display_cost := display_cost, ranking_cost := ranking_cost,
           total_activations := total_activations, total_topups := total_topups,
           total_accounts := total_accounts, data := data, dur := dur }
  else none

/-! ## Top-N retention loop of `main` (lines 474-488)

The source keeps a bounded heap of tuples `(-ranking_cost, counter, res)`
via Python's `heapq` (standard library): `heap[0]` is the smallest tuple,
`heappush` adds an element, `heapreplace` pops the smallest and adds.
Since the counter is unique, tuple comparison never reaches the third
component; we model the heap's content as a list kept sorted ascending by
the lexicographic order on `(-ranking_cost, counter)`, whose head is
`heap[0]`.  The payload recorded for each retained solution is its
`ranking_cost` (the field of `res` the claims are about). -/

/-- A heap entry `(-ranking_cost, counter, res.ranking_cost)`. -/
abbrev HeapEntry := ℚ × ℕ × ℚ

/-- Python tuple `<` on the first two components. -/
def entry_lt (a b : HeapEntry) : Bool :=
  decide (a.1 < b.1 ∨ (a.1 = b.1 ∧ a.2.1 < b.2.1))

/-- Insert into the sorted heap content (models `heapq.heappush`). -/
def heap_push (e : HeapEntry) : List HeapEntry → List HeapEntry
  | [] => [e]
  | x :: xs => if entry_lt e x then e :: x :: xs else x :: heap_push e xs

/-- Pop the smallest entry and insert a new one
(models `heapq.heapreplace`; never called on an empty heap). -/
def heap_replace (e : HeapEntry) : List HeapEntry → List HeapEntry
  | [] => [e]
  | _ :: xs => heap_push e xs

/-- `-solutions[0][0]`: the ranking cost of the heap root, i.e. the worst
retained ranking cost. -/
def worst_ranking : List HeapEntry → ℚ
  | [] => 0
  | x :: _ => -x.1

/-- Lines 482-485: how one feasible result (with ranking cost `r`, as the
`counter`-th feasible one) updates the retained solutions. -/
def sol_step (top_n : ℕ) (sols : List HeapEntry) (r : ℚ) (counter : ℕ) :
    List HeapEntry :=
  if sols.length < top_n then heap_push (-r, counter, r) sols
  else match sols with
    | [] => sols
    | x :: xs => if r < -x.1 then heap_replace (-r, counter, r) (x :: xs) else x :: xs

/-- Lines 477-485: the evaluation loop over all candidates; `none` stands
for an infeasible candidate (`evaluate_combination` returned `None`),
`some r` for a feasible one of ranking cost `r`.  The counter counts
feasible candidates (incremented before the push, line 481). -/
def sol_run (top_n : ℕ) (cands : List (Option ℚ)) : List HeapEntry × ℕ :=
  cands.foldl
    (fun st c =>
      match c with
      | none => st
      | some r => (sol_step top_n st.1 r (st.2 + 1), st.2 + 1))
    ([], 0)

/-- Line 488: `sorted(solutions, key=lambda x: -x[0])` then project the
result payload — the retained ranking costs sorted ascending. -/
def sol_final (sols : List HeapEntry) : List ℚ :=
  (stable_sort (fun a b => decide ((-a.1 : ℚ) ≤ -b.1)) sols).map (fun e => e.2.2)

/-- `TOP_N_SOLUTIONS` (line 33). -/
def TOP_N_SOLUTIONS : ℕ := 10

/-- Python tuple `≤` on the first two components of a heap entry. -/
def entry_le (a b : HeapEntry) : Prop :=
  a.1 < b.1 ∨ (a.1 = b.1 ∧ a.2.1 ≤ b.2.1)

/-- The heap-model invariant: content sorted ascending (the head is
`heap[0]`, the smallest tuple), and every entry's first component is the
negated ranking cost it carries. -/
def heap_inv (s : List HeapEntry) : Prop :=
  s.Pairwise entry_le ∧ ∀ e ∈ s, e.1 = -e.2.2

/-! ## Concrete fixtures used by the per-claim witnesses/counterexamples -/

/-- C1 witness fixture: a total-cap plan with 15 MB of effective capacity. -/
def c1_plan : PlanState :=
  { base := { provider_id := "prov", plan_name := "pl", usd_price := 1,
              usd_promo_price := none, data_mb := 100, validity_days := 5,
              coverage := ["a"], new_user_only := false, data_cap_per_day := false,
              provider_promo_type := "unlimited" },
    effective_mb := 15, remaining_mb := 15, effective_days := 5,
    daily_cap := none, start_time := none }

/-- C1 witness fixture: two legs needing 10 MB each; the single 15 MB plan
covers leg 1 but leaves leg 2 short, so the solver fails after having
committed leg 1. -/
def c1_segs : List Seg :=
  [ { slug := "a", start := 0, stop := 1, mb_needed := 10, days := 1 },
    { slug := "a", start := 1, stop := 2, mb_needed := 10, days := 1 } ]

/-- C9 witness fixture: a plan holding 199/2 MB. -/
def c9_plan : PlanState :=
  { base := { provider_id := "p9", plan_name := "pl9", usd_price := 2,
              usd_promo_price := none, data_mb := 200, validity_days := 4,
              coverage := ["b"], new_user_only := false, data_cap_per_day := false,
              provider_promo_type := "unlimited" },
    effective_mb := 199/2, remaining_mb := 199/2, effective_days := 4,
    daily_cap := none, start_time := none }

/-- C9 witness fixture: one leg needing 100 MB — the candidate falls short
by only half a megabyte. -/
def c9_seg : Seg :=
  { slug := "b", start := 0, stop := 2, mb_needed := 100, days := 2 }

/-- C10 counterexample fixture: a plan holding 59/2 MB. -/
def c10_plan : PlanState :=
  { base := { provider_id := "p10", plan_name := "pl10", usd_price := 3,
              usd_promo_price := none, data_mb := 60, validity_days := 3,
              coverage := ["c"], new_user_only := false, data_cap_per_day := false,
              provider_promo_type := "unlimited" },
    effective_mb := 59/2, remaining_mb := 59/2, effective_days := 3,
    daily_cap := none, start_time := none }

/-- C10 counterexample fixture: one leg needing 30 MB — half a megabyte
more than the candidate can deliver. -/
def c10_seg : Seg :=
  { slug := "c", start := 0, stop := 3, mb_needed := 30, days := 3 }

/-- C10 witness fixture: a plan holding 15 MB. -/
def c10w_plan : PlanState :=
  { base := { provider_id := "p10w", plan_name := "pl10w", usd_price := 3,
              usd_promo_price := none, data_mb := 40, validity_days := 3,
              coverage := ["d"], new_user_only := false, data_cap_per_day := false,
              provider_promo_type := "unlimited" },
    effective_mb := 15, remaining_mb := 15, effective_days := 3,
    daily_cap := none, start_time := none }

/-- C10 witness fixture: one leg needing 10 MB, amply covered. -/
def c10w_seg : Seg :=
  { slug := "d", start := 0, stop := 3, mb_needed := 10, days := 3 }

/-- C3 witness fixture: a one-leg itinerary with 100 MB over 1 day, so the
daily usage rate is 100. -/
def c3_itin : List Step :=
  [ { days := 1, mb := 100, slug := "x" } ]

/-- C3 witness fixture: a 50 MB / 2-day plan. -/
def c3_plan : Plan :=
  { provider_id := "p3", plan_name := "pl3", usd_price := 4,
    usd_promo_price := none, data_mb := 50, validity_days := 2,
    coverage := ["x"], new_user_only := false, data_cap_per_day := false,
    provider_promo_type := "unlimited" }

/-- C3 witness fixture: the working copy the setup loop builds for
`c3_plan` at rate 100 — effective capacity `min 50 200 = 50`, effective
validity `min 2 (50/100) = 1/2`. -/
def c3_state : PlanState :=
  { base := c3_plan, effective_mb := 50, remaining_mb := 50,
    effective_days := 1/2, daily_cap := none, start_time := none }

/-- The "remaining validity" of a plan at a leg, in the claim's sense: the
time from the leg's start to the end of the plan's effective window, the
activation day defaulting to the leg start for not-yet-activated plans
(first-use semantics).  Modelled from the spec's words; the code does not
compute this quantity. -/
def rem_validity (seg : Seg) (p : PlanState) : ℚ :=
  (p.start_time.getD seg.start + p.effective_days) - seg.start

/-- C4 counterexample fixture: activated at day 8 with 10 days of
validity — 9 days of remaining validity at day 9. -/
def c4_pA : PlanState :=
  { base := { provider_id := "pA", plan_name := "plA", usd_price := 5,
              usd_promo_price := none, data_mb := 100, validity_days := 10,
              coverage := ["a"], new_user_only := false, data_cap_per_day := false,
              provider_promo_type := "unlimited" },
    effective_mb := 50, remaining_mb := 50, effective_days := 10,
    daily_cap := none, start_time := some 8 }

/-- C4 counterexample fixture: activated at day 0 with 12 days of
validity — only 3 days of remaining validity at day 9. -/
def c4_pB : PlanState :=
  { base := { provider_id := "pB", plan_name := "plB", usd_price := 6,
              usd_promo_price := none, data_mb := 100, validity_days := 12,
              coverage := ["a"], new_user_only := false, data_cap_per_day := false,
              provider_promo_type := "unlimited" },
    effective_mb := 50, remaining_mb := 50, effective_days := 12,
    daily_cap := none, start_time := some 0 }

/-- C4 counterexample fixture: a leg on day 9. -/
def c4_seg : Seg :=
  { slug := "a", start := 9, stop := 10, mb_needed := 5, days := 1 }

/-- C8 witness fixture: a `new_user_only` plan of provider `p8`. -/
def c8_plan : Plan :=
  { provider_id := "p8", plan_name := "pl8", usd_price := 7,
    usd_promo_price := none, data_mb := 1000, validity_days := 7,
    coverage := ["y"], new_user_only := true, data_cap_per_day := false,
    provider_promo_type := "unlimited" }

/-- C8 witness fixture: a one-leg itinerary. -/
def c8_itin : List Step :=
  [ { days := 2, mb := 100, slug := "y" } ]

/-- C2 witness fixture: a $10-regular / $5-promo plan of a one-time-promo
provider (the scenario of `verify_promo_logic.test_promo_logic`). -/
def c2_plan : MPlan :=
  { provider_id := "65fd5b85efc7ee1e3444055a", provider_name := "MicroEsim",
    can_top_up := true, new_user_only := false, usd_promo_price := some 5,
    usd_price := some 10, hassle_penalty_per_account := none,
    provider_promo_type := "one-time", data_mb := 1024, validity_days := 7 }

/-- C5 fixture: a $5 plan of provider `a5`, top-up capable, no promo. -/
def c5_pA : MPlan :=
  { provider_id := "a5", provider_name := "A5", can_top_up := true,
    new_user_only := false, usd_promo_price := none, usd_price := some 5,
    hassle_penalty_per_account := none, provider_promo_type := "unlimited",
    data_mb := 10000, validity_days := 20 }

/-- C5 fixture: a $5 plan of provider `b5`, top-up capable, no promo. -/
def c5_pB : MPlan :=
  { provider_id := "b5", provider_name := "B5", can_top_up := true,
    new_user_only := false, usd_promo_price := none, usd_price := some 5,
    hassle_penalty_per_account := none, provider_promo_type := "unlimited",
    data_mb := 10000, validity_days := 20 }

/-- C5 fixture: the result `evaluate_combination` produces for one unit of
`c5_pA` plus one unit of `c5_pB` (two providers, one account each). -/
def c5_result : CombResult :=
  { display_cost := 10, ranking_cost := 10, total_activations := 2,
    total_topups := 0, total_accounts := 2, data := 20000, dur := 20 }

/-- C6 counterexample fixture: a free plan (`usd_price = 0`, no promo)
that can neither top up nor is new-user-only. -/
def c6_plan : MPlan :=
  { provider_id := "f6", provider_name := "F6", can_top_up := false,
    new_user_only := false, usd_promo_price := none, usd_price := some 0,
    hassle_penalty_per_account := none, provider_promo_type := "unlimited",
    data_mb := 500, validity_days := 7 }

/-- C7 witness fixture: a stream of candidate evaluations — feasible ones
with ranking costs 5, 3, 7, 4 and one infeasible (`none`). -/
def c7_cands : List (Option ℚ) :=
  [some 5, none, some 3, some 7, some 4]

/-! ## List helper lemmas -/

@[simp] theorem set_start_start_time (t : Option ℚ) (p : PlanState) :
    (set_start t p).start_time = t := rfl

@[simp] theorem set_start_daily_cap (t : Option ℚ) (p : PlanState) :
    (set_start t p).daily_cap = p.daily_cap := rfl

@[simp] theorem set_start_remaining (t : Option ℚ) (p : PlanState) :
    (set_start t p).remaining_mb = p.remaining_mb := rfl

@[simp] theorem sub_remaining_remaining (v : ℚ) (p : PlanState) :
    (sub_remaining v p).remaining_mb = p.remaining_mb - v := rfl

theorem set_start_none_self (p : PlanState) (h : p.start_time = none) :
    set_start none p = p := by
  cases p; simp [set_start]; exact h.symm

theorem set_start_set_start (a b : Option ℚ) (p : PlanState) :
    set_start a (set_start b p) = set_start a p := rfl

theorem add_sub_remaining (v : ℚ) (p : PlanState) :
    add_remaining v (sub_remaining v p) = p := by
  cases p; simp [add_remaining, sub_remaining]

theorem set_start_sub_remaining (t : Option ℚ) (v : ℚ) (p : PlanState) :
    set_start t (sub_remaining v p) = sub_remaining v (set_start t p) := rfl

theorem getD_set_self {α : Type} : ∀ (l : List α) (i : ℕ) (x d : α), i < l.length →
    (l.set i x).getD i d = x := by
  intro l
  induction l with
  | nil => intro i x d h; simp at h
  | cons a as ih =>
    intro i x d h
    cases i with
    | zero => simp
    | succ n =>
      simp only [List.set]
      simpa using ih n x d (by simpa using h)

theorem set_getD_self {α : Type} : ∀ (l : List α) (i : ℕ) (d : α), i < l.length →
    l.set i (l.getD i d) = l := by
  intro l
  induction l with
  | nil => intro i d h; simp at h
  | cons a as ih =>
    intro i d h
    cases i with
    | zero => simp
    | succ n =>
      simp only [List.set, List.getD_cons_succ]
      rw [ih n d (by simpa using h)]

/-! ## Rollback correctness (claim C1 machinery) -/

theorem rollback_nil (s : List PlanState) : rollback [] s = s := rfl

theorem rollback_append (a b : List (ℕ × RbOp)) (s : List PlanState) :
    rollback (a ++ b) s = rollback a (rollback b s) := by
  simp [rollback, List.reverse_append, List.foldl_append]

/-- Undoing a single `remaining_mb` decrement at a valid index restores
the list. -/
theorem rollback_dec (v : ℚ) (i : ℕ) (plans : List PlanState) (h : i < plans.length) :
    rollback [(i, RbOp.dec v)] (plans.set i (sub_remaining v (plans.getD i default))) =
      plans := by
  simp only [rollback, List.reverse_cons, List.reverse_nil, List.nil_append,
    List.foldl_cons, List.foldl_nil]
  rw [getD_set_self _ _ _ _ (by simpa using h)]
  rw [add_sub_remaining, List.set_set]
  exact set_getD_self _ _ _ h

/-- Undoing a `_start_time` write at a valid index restores the list,
provided the field was previously absent. -/
theorem rollback_start (t : ℚ) (i : ℕ) (plans : List PlanState) (h : i < plans.length)
    (hst : (plans.getD i default).start_time = none) :
    rollback [(i, RbOp.start)] (plans.set i (set_start (some t) (plans.getD i default))) =
      plans := by
  simp only [rollback, List.reverse_cons, List.reverse_nil, List.nil_append,
    List.foldl_cons, List.foldl_nil]
  rw [getD_set_self _ _ _ _ (by simpa using h)]
  rw [set_start_set_start, set_start_none_self _ hst, List.set_set]
  exact set_getD_self _ _ _ h

/-- Undoing the mutations of one loop iteration restores the plan list. -/
theorem consume_step_rollback (seg_start amount : ℚ) (i : ℕ) (plans : List PlanState)
    (h : i < plans.length) :
    rollback (consume_step seg_start amount i plans).2
      (consume_step seg_start amount i plans).1 = plans := by
  unfold consume_step
  by_cases hst : (plans.getD i default).start_time = none
  · rw [if_pos hst]
    by_cases hdc : (((plans.set i (set_start (some seg_start) (plans.getD i default))).getD
        i default).daily_cap.getD 0 = 0)
    · rw [if_pos hdc]
      have h1 : i < (plans.set i (set_start (some seg_start) (plans.getD i default))).length := by
        simpa using h
      rw [show ([(i, RbOp.start), (i, RbOp.dec amount)]) =
            [(i, RbOp.start)] ++ [(i, RbOp.dec amount)] from rfl, rollback_append]
      rw [rollback_dec _ _ _ h1]
      exact rollback_start _ _ _ h hst
    · rw [if_neg hdc]
      exact rollback_start _ _ _ h hst
  · rw [if_neg hst]
    by_cases hdc : ((plans.getD i default).daily_cap.getD 0 = 0)
    · rw [if_pos hdc]
      exact rollback_dec _ _ _ h
    · rw [if_neg hdc]
      exact rollback_nil plans

theorem consume_step_length (seg_start amount : ℚ) (i : ℕ) (plans : List PlanState) :
    (consume_step seg_start amount i plans).1.length = plans.length := by
  unfold consume_step
  by_cases hst : (plans.getD i default).start_time = none
  · rw [if_pos hst]
    by_cases hdc : (((plans.set i (set_start (some seg_start) (plans.getD i default))).getD
        i default).daily_cap.getD 0 = 0)
    · rw [if_pos hdc]; simp
    · rw [if_neg hdc]; simp
  · rw [if_neg hst]
    by_cases hdc : ((plans.getD i default).daily_cap.getD 0 = 0)
    · rw [if_pos hdc]; simp
    · rw [if_neg hdc]

theorem consume_loop_length (seg_start : ℚ) :
    ∀ (contribs : List (ℕ × ℚ)) (left : ℚ) (plans : List PlanState),
      (consume_loop seg_start left contribs plans).2.1.length = plans.length := by
  intro contribs
  induction contribs with
  | nil => intro left plans; rfl
  | cons c rest ih =>
    intro left plans
    obtain ⟨i, possible⟩ := c
    by_cases hl : left ≤ 0
    · simp [consume_loop, hl]
    · simp only [consume_loop, hl, if_false]
      rw [ih]
      exact consume_step_length _ _ _ _

/-- Undoing the whole `consumed_ops` log of one leg restores the plan
list to what it was before the leg was attempted. -/
theorem consume_loop_rollback (seg_start : ℚ) :
    ∀ (contribs : List (ℕ × ℚ)) (left : ℚ) (plans : List PlanState),
      (∀ c ∈ contribs, c.1 < plans.length) →
      rollback (consume_loop seg_start left contribs plans).2.2
        (consume_loop seg_start left contribs plans).2.1 = plans := by
  intro contribs
  induction contribs with
  | nil => intro left plans _; exact rollback_nil plans
  | cons c rest ih =>
    intro left plans hidx
    obtain ⟨i, possible⟩ := c
    by_cases hl : left ≤ 0
    · simp only [consume_loop, hl, if_true]
      exact rollback_nil plans
    · simp only [consume_loop, hl, if_false]
      have hi : i < plans.length := hidx (i, possible) (by simp)
      have hrest : ∀ c ∈ rest, c.1 <
          (consume_step seg_start (min possible left) i plans).1.length := by
        rw [consume_step_length]
        intro c hc; exact hidx c (by simp [hc])
      rw [rollback_append, ih _ _ hrest]
      exact consume_step_rollback _ _ _ _ hi

/-! ## Sorting lemmas -/

theorem mem_stable_insert (le : α → α → Bool) (x a : α) :
    ∀ (l : List α), a ∈ stable_insert le x l ↔ a = x ∨ a ∈ l := by
  intro l
  induction l with
  | nil => simp [stable_insert]
  | cons y ys ih =>
    by_cases hc : (le x y = true ∧ ¬ le y x = true)
    · simp [stable_insert, hc]
    · simp only [stable_insert, if_neg hc, List.mem_cons, ih]
      tauto

theorem mem_stable_sort (le : α → α → Bool) (a : α) (l : List α) :
    a ∈ stable_sort le l ↔ a ∈ l := by
  suffices h : ∀ (l acc : List α), a ∈ l.foldl (fun acc x => stable_insert le x acc) acc ↔
      a ∈ acc ∨ a ∈ l by
    have := h l []
    simpa [stable_sort] using this
  intro l
  induction l with
  | nil => intro acc; simp
  | cons y ys ih =>
    intro acc
    simp only [List.foldl_cons, ih, mem_stable_insert, List.mem_cons]
    tauto

theorem plan_contribs_from_index_lt (seg : Seg) :
    ∀ (plans : List PlanState) (i : ℕ), ∀ c ∈ plan_contribs_from seg i plans,
      c.1 < i + plans.length := by
  intro plans
  induction plans with
  | nil => intro i c hc; simp [plan_contribs_from] at hc
  | cons p rest ih =>
    intro i c hc
    have step : ∀ d ∈ plan_contribs_from seg (i + 1) rest, d.1 < i + (p :: rest).length := by
      intro d hd
      have := ih (i + 1) d hd
      simpa [Nat.add_comm, Nat.add_left_comm, Nat.add_assoc] using this
    by_cases hcov : seg.slug ∈ p.base.coverage
    · rw [plan_contribs_from, if_pos hcov] at hc
      cases hco : contrib_of seg p with
      | some v =>
        rw [hco] at hc
        rcases List.mem_cons.1 hc with h | h
        · subst h; simp
        · exact step c h
      | none =>
        rw [hco] at hc
        exact step c hc
    · rw [plan_contribs_from, if_neg hcov] at hc
      exact step c hc

theorem plan_contribs_index_lt (seg : Seg) (plans : List PlanState) :
    ∀ c ∈ plan_contribs seg plans, c.1 < plans.length := by
  intro c hc
  simpa using plan_contribs_from_index_lt seg plans 0 c hc

theorem sort_contribs_index_lt (seg : Seg) (plans : List PlanState) :
    ∀ c ∈ sort_contribs plans (plan_contribs seg plans), c.1 < plans.length := by
  intro c hc
  exact plan_contribs_index_lt seg plans c ((mem_stable_sort _ _ _).1 hc)

/-! ## Claim C1: failure of `solve_segment` leaves the plan state intact -/

/-- If `solve_segment` reports infeasibility — whether its own leg failed
or a later recursive leg failed and the failure propagated back — the
plan list it hands back is exactly the input list. -/
theorem solve_segment_false_eq :
    ∀ (segs : List Seg) (plans : List PlanState),
      (solve_segment segs plans).1 = false → (solve_segment segs plans).2 = plans := by
  intro segs
  induction segs with
  | nil => intro plans h; simp [solve_segment] at h
  | cons seg rest ih =>
    intro plans h
    by_cases hpre : ((plan_contribs seg plans).map Prod.snd).sum < seg.mb_needed
    · simp [solve_segment, hpre]
    · have hidx : ∀ c ∈ sort_contribs plans (plan_contribs seg plans), c.1 < plans.length :=
        sort_contribs_index_lt seg plans
      by_cases hleft :
          1 < (consume_loop seg.start seg.mb_needed
                (sort_contribs plans (plan_contribs seg plans)) plans).1
      · have heq : solve_segment (seg :: rest) plans =
            (false,
             rollback (consume_loop seg.start seg.mb_needed
                 (sort_contribs plans (plan_contribs seg plans)) plans).2.2
               (consume_loop seg.start seg.mb_needed
                 (sort_contribs plans (plan_contribs seg plans)) plans).2.1) := by
          simp only [solve_segment]
          rw [if_neg hpre, if_pos hleft]
        rw [heq]
        exact consume_loop_rollback _ _ _ _ hidx
      · by_cases hrec :
            (solve_segment rest (consume_loop seg.start seg.mb_needed
               (sort_contribs plans (plan_contribs seg plans)) plans).2.1).1 = true
        · have heq : solve_segment (seg :: rest) plans =
              (true,
               (solve_segment rest (consume_loop seg.start seg.mb_needed
                  (sort_contribs plans (plan_contribs seg plans)) plans).2.1).2) := by
            simp only [solve_segment]
            rw [if_neg hpre, if_neg hleft, if_pos hrec]
          rw [heq] at h
          simp at h
        · have heq : solve_segment (seg :: rest) plans =
              (false,
               rollback (consume_loop seg.start seg.mb_needed
                   (sort_contribs plans (plan_contribs seg plans)) plans).2.2
                 (solve_segment rest (consume_loop seg.start seg.mb_needed
                    (sort_contribs plans (plan_contribs seg plans)) plans).2.1).2) := by
            simp only [solve_segment]
            rw [if_neg hpre, if_neg hleft, if_neg hrec]
          rw [heq]
          have h2 := ih (consume_loop seg.start seg.mb_needed
              (sort_contribs plans (plan_contribs seg plans)) plans).2.1
            (by simpa using hrec)
          rw [h2]
          exact consume_loop_rollback _ _ _ _ hidx

/-- C1: for every plan list and every ordered list of legs, if the
solver's attempt on a leg fails — directly, or because a later leg failed
and the failure propagated back through the rollbacks — then the plan
state handed back (every plan's `remaining_mb` and `_start_time`) is
identical to the state before the attempt began: a reported infeasibility
never leaves a partially committed allocation behind. -/
theorem C1_failure_rolls_back_to_identical_state (segs : List Seg)
    (plans : List PlanState) (hfail : (solve_segment segs plans).1 = false) :
    (solve_segment segs plans).2 = plans :=
  solve_segment_false_eq segs plans hfail

/-- C1 witness: on the concrete two-leg fixture the solver commits leg 1,
fails leg 2, and hands back exactly the original plan state. -/
theorem C1_failure_rolls_back_to_identical_state_witness :
    (solve_segment c1_segs [c1_plan]).1 = false ∧
      (solve_segment c1_segs [c1_plan]).2 = [c1_plan] := by
  have hfail : (solve_segment c1_segs [c1_plan]).1 = false := by
    norm_num [solve_segment, c1_segs, c1_plan, plan_contribs, plan_contribs_from,
      contrib_of, sort_contribs, stable_sort, stable_insert, key_le, sort_key,
      consume_loop, consume_step, set_start, sub_remaining, add_remaining, rollback]
  exact ⟨hfail, C1_failure_rolls_back_to_identical_state c1_segs [c1_plan] hfail⟩

/-- C9: if the summed maximum contributions of the eligible candidates
fall strictly below the leg's requirement — with no epsilon slack — the
solver rejects immediately and the returned plan state is the untouched
input (no activation flag set, no capacity decremented). -/
theorem C9_availability_precheck_rejects_without_mutation (seg : Seg)
    (rest : List Seg) (plans : List PlanState)
    (hsum : ((plan_contribs seg plans).map Prod.snd).sum < seg.mb_needed) :
    solve_segment (seg :: rest) plans = (false, plans) := by
  simp only [solve_segment]
  rw [if_pos hsum]

/-- C9 witness: a candidate short by only half a megabyte (within what the
post-loop tolerance would forgive) is already rejected by the strict
pre-check, plans untouched. -/
theorem C9_availability_precheck_rejects_without_mutation_witness :
    ((plan_contribs c9_seg [c9_plan]).map Prod.snd).sum < c9_seg.mb_needed ∧
      solve_segment [c9_seg] [c9_plan] = (false, [c9_plan]) := by
  have hsum : ((plan_contribs c9_seg [c9_plan]).map Prod.snd).sum < c9_seg.mb_needed := by
    norm_num [plan_contribs, plan_contribs_from, contrib_of, c9_seg, c9_plan]
  exact ⟨hsum, C9_availability_precheck_rejects_without_mutation c9_seg [] [c9_plan] hsum⟩

/-! ## Claim C10: the 1 MB tolerance is never what admits a candidate -/

theorem stable_insert_perm (le : α → α → Bool) (x : α) :
    ∀ (l : List α), (stable_insert le x l).Perm (x :: l) := by
  intro l
  induction l with
  | nil => simp [stable_insert]
  | cons y ys ih =>
    by_cases hc : (le x y = true ∧ ¬ le y x = true)
    · simp [stable_insert, hc]
    · rw [stable_insert, if_neg hc]
      exact (ih.cons y).trans (List.Perm.swap x y ys)

theorem stable_sort_perm (le : α → α → Bool) (l : List α) :
    (stable_sort le l).Perm l := by
  suffices h : ∀ (l acc : List α),
      (l.foldl (fun acc x => stable_insert le x acc) acc).Perm (acc ++ l) by
    simpa [stable_sort] using h l []
  intro l
  induction l with
  | nil => intro acc; simp
  | cons y ys ih =>
    intro acc
    simp only [List.foldl_cons]
    refine (ih (stable_insert le y acc)).trans ?_
    refine (List.Perm.append_right ys (stable_insert_perm le y acc)).trans ?_
    simpa using
      (List.perm_middle : List.Perm (acc ++ y :: ys) (y :: (acc ++ ys))).symm

/-- Contribution sums are invariant under the candidate sort. -/
theorem sort_contribs_sum (plans : List PlanState) (contribs : List (ℕ × ℚ)) :
    ((sort_contribs plans contribs).map Prod.snd).sum = (contribs.map Prod.snd).sum :=
  ((stable_sort_perm _ contribs).map Prod.snd).sum_eq

/-- The greedy loop's unmet remainder is bounded by what the candidates
could not cover. -/
theorem consume_loop_left_le (seg_start : ℚ) :
    ∀ (contribs : List (ℕ × ℚ)) (left : ℚ) (plans : List PlanState),
      (∀ c ∈ contribs, 0 ≤ c.2) →
      (consume_loop seg_start left contribs plans).1 ≤
        max 0 (left - (contribs.map Prod.snd).sum) := by
  intro contribs
  induction contribs with
  | nil =>
    intro left plans _
    simp [consume_loop]
  | cons c rest ih =>
    intro left plans hnn
    obtain ⟨i, possible⟩ := c
    by_cases hl : left ≤ 0
    · simp only [consume_loop, hl, if_true]
      exact le_max_of_le_left hl
    · simp only [consume_loop, hl, if_false]
      have hrest : ∀ d ∈ rest, 0 ≤ d.2 := fun d hd => hnn d (by simp [hd])
      have hp : (0 : ℚ) ≤ possible := hnn (i, possible) (by simp)
      have hs : (0 : ℚ) ≤ (rest.map Prod.snd).sum := by
        apply List.sum_nonneg
        intro x hx
        rcases List.mem_map.1 hx with ⟨d, hd, hxd⟩
        rw [← hxd]; exact hrest d hd
      have hIH := ih (left - min possible left) (consume_step seg_start (min possible left) i plans).1 hrest
      refine hIH.trans ?_
      rcases le_total possible left with hcase | hcase
      · have : min possible left = possible := min_eq_left hcase
        rw [this]
        simp only [List.map_cons, List.sum_cons]
        apply max_le_max le_rfl
        ring_nf
        exact le_rfl
      · have : min possible left = left := min_eq_right hcase
        rw [this]
        simp only [sub_self]
        have h0 : max 0 (0 - (rest.map Prod.snd).sum) = 0 := by
          apply max_eq_left
          simpa using neg_nonpos_of_nonneg hs
        rw [h0]
        exact le_max_left _ _

/-- C10 counterexample: the claim reads the post-loop check as a per-leg
tolerance of exactly 1 MB, so a candidate able to deliver all but half a
megabyte of a leg's requirement would be judged feasible; on this concrete
input the code judges it infeasible (the strict availability pre-check
fires before the loop's `> 1` test can forgive anything). -/
theorem C10_counterexample_half_mb_shortfall_rejected :
    ((plan_contribs c10_seg [c10_plan]).map Prod.snd).sum = c10_seg.mb_needed - 1/2 ∧
      (solve_segment [c10_seg] [c10_plan]).1 = false := by
  constructor
  · norm_num [plan_contribs, plan_contribs_from, contrib_of, c10_seg, c10_plan]
  · norm_num [solve_segment, plan_contribs, plan_contribs_from, contrib_of,
      c10_seg, c10_plan]

/-- C10 (amended): the post-loop acceptance test is indeed
`left_to_fill ≤ 1`, but whenever it is reached the pre-check has already
ensured the candidates can cover the full requirement, and the greedy loop
then drives the unmet remainder to `≤ 0` (exact arithmetic): the leg never
fails after the loop, and a feasible candidate covers every leg's
requirement in full — the 1 MB epsilon never admits an under-delivering
candidate. -/
theorem C10_accepted_legs_are_fully_covered (seg : Seg) (rest : List Seg)
    (plans : List PlanState)
    (hsum : seg.mb_needed ≤ ((plan_contribs seg plans).map Prod.snd).sum)
    (hnn : ∀ c ∈ plan_contribs seg plans, 0 ≤ c.2) :
    (consume_loop seg.start seg.mb_needed
        (sort_contribs plans (plan_contribs seg plans)) plans).1 ≤ 0 ∧
      (solve_segment (seg :: rest) plans).1 =
        (solve_segment rest
          (consume_loop seg.start seg.mb_needed
            (sort_contribs plans (plan_contribs seg plans)) plans).2.1).1 := by
  have hnn' : ∀ c ∈ sort_contribs plans (plan_contribs seg plans), 0 ≤ c.2 :=
    fun c hc => hnn c ((mem_stable_sort _ _ _).1 hc)
  have hle := consume_loop_left_le seg.start
    (sort_contribs plans (plan_contribs seg plans)) seg.mb_needed plans hnn'
  rw [sort_contribs_sum] at hle
  have hmax : max 0 (seg.mb_needed - ((plan_contribs seg plans).map Prod.snd).sum) = 0 :=
    max_eq_left (by linarith)
  rw [hmax] at hle
  refine ⟨hle, ?_⟩
  have hpre : ¬ (((plan_contribs seg plans).map Prod.snd).sum < seg.mb_needed) :=
    not_lt.2 hsum
  have hleft : ¬ (1 < (consume_loop seg.start seg.mb_needed
      (sort_contribs plans (plan_contribs seg plans)) plans).1) := by
    push_neg
    linarith
  simp only [solve_segment]
  rw [if_neg hpre, if_neg hleft]
  by_cases hrec : (solve_segment rest
      (consume_loop seg.start seg.mb_needed
        (sort_contribs plans (plan_contribs seg plans)) plans).2.1).1 = true
  · rw [if_pos hrec, hrec]
  · rw [if_neg hrec]
    simp only [Bool.not_eq_true] at hrec
    rw [hrec]

/-- C10 witness: on the concrete fixture the pre-check passes and the
greedy loop leaves no unmet remainder. -/
theorem C10_accepted_legs_are_fully_covered_witness :
    c10w_seg.mb_needed ≤ ((plan_contribs c10w_seg [c10w_plan]).map Prod.snd).sum ∧
      (consume_loop c10w_seg.start c10w_seg.mb_needed
        (sort_contribs [c10w_plan] (plan_contribs c10w_seg [c10w_plan])) [c10w_plan]).1 ≤ 0 := by
  have h1 : c10w_seg.mb_needed ≤ ((plan_contribs c10w_seg [c10w_plan]).map Prod.snd).sum := by
    norm_num [plan_contribs, plan_contribs_from, contrib_of, c10w_seg, c10w_plan]
  have h2 : ∀ c ∈ plan_contribs c10w_seg [c10w_plan], 0 ≤ c.2 := by
    intro c hc
    simp only [plan_contribs, plan_contribs_from, contrib_of, c10w_seg, c10w_plan] at hc
    norm_num at hc
    rw [hc]
    norm_num
  exact ⟨h1, (C10_accepted_legs_are_fully_covered c10w_seg [] [c10w_plan] h1 h2).1⟩

/-! ## Claim C3: effective capacity / validity caps -/

/-- Every working copy produced by the setup loop is `mk_state` of some
plan of the candidate combo. -/
theorem setup_plans_mem (r : ℚ) :
    ∀ (combo : List Plan) (seen : List String) (plans : List PlanState),
      setup_plans r combo seen = some plans →
      ∀ pc ∈ plans, ∃ p ∈ combo, pc = mk_state r p := by
  intro combo
  induction combo with
  | nil =>
    intro seen plans hset pc hpc
    simp only [setup_plans, Option.some.injEq] at hset
    rw [← hset] at hpc
    simp at hpc
  | cons p rest ih =>
    intro seen plans hset pc hpc
    rw [setup_plans] at hset
    by_cases hcond : (p.new_user_only = true ∧ p.provider_id ∈ seen)
    · rw [if_pos hcond] at hset; exact absurd hset (by simp)
    · rw [if_neg hcond] at hset
      rcases Option.map_eq_some'.1 hset with ⟨l, hl, hcons⟩
      rw [← hcons] at hpc
      rcases List.mem_cons.1 hpc with h | h
      · exact ⟨p, by simp, h⟩
      · rcases ih _ l hl pc h with ⟨p', hp', hpc'⟩
        exact ⟨p', by simp [hp'], hpc'⟩

/-- A total-cap plan's contribution, when it contributes at all, is
exactly its remaining capacity. -/
theorem contrib_of_total_cap (seg : Seg) (pc : PlanState) (h : pc.daily_cap = none) :
    ∀ c : ℚ, contrib_of seg pc = some c → c = pc.remaining_mb := by
  intro c hc
  unfold contrib_of at hc
  by_cases hov : (max 0 (min (pc.start_time.getD seg.start + pc.effective_days) seg.stop -
      max (pc.start_time.getD seg.start) seg.start) ≤ 0)
  · rw [if_pos hov] at hc; exact absurd hc (by simp)
  · rw [if_neg hov] at hc
    rw [h] at hc
    simp at hc
    exact hc.symm

/-- A plan contributes nothing to a leg that starts at or after the end of
its effective window. -/
theorem contrib_of_expired (seg : Seg) (pc : PlanState)
    (h : pc.start_time.getD seg.start + pc.effective_days ≤ seg.start) :
    contrib_of seg pc = none := by
  unfold contrib_of
  have h1 : min (pc.start_time.getD seg.start + pc.effective_days) seg.stop ≤
      max (pc.start_time.getD seg.start) seg.start :=
    le_trans (min_le_left _ _) (le_trans h (le_max_right _ _))
  have h2 : max 0 (min (pc.start_time.getD seg.start + pc.effective_days) seg.stop -
      max (pc.start_time.getD seg.start) seg.start) ≤ 0 :=
    max_le le_rfl (by linarith)
  rw [if_pos h2]

/-- C3: in every candidate evaluation over an itinerary with total data
`D` and total duration `T` (daily rate `R = D/T`), each working copy gets
`effective_mb = min(raw, validity × R)` and
`effective_days = min(validity, raw / R)`; the initial remaining capacity
is the effective (not raw) capacity, a total-cap plan's per-leg
contribution is its remaining capacity, and the expiry that silences a
plan is `start + effective_days` (not raw validity). -/
theorem C3_effective_capacity_and_validity_cap_the_solver (itin : List Step)
    (combo : List Plan) (plans : List PlanState) (pc : PlanState)
    (hset : setup_plans ((itin.map Step.mb).sum / (itin.map Step.days).sum)
      combo [] = some plans)
    (hmem : pc ∈ plans) :
    pc.effective_mb = min pc.base.data_mb
        (pc.base.validity_days * ((itin.map Step.mb).sum / (itin.map Step.days).sum))
    ∧ pc.effective_days = min pc.base.validity_days
        (pc.base.data_mb / ((itin.map Step.mb).sum / (itin.map Step.days).sum))
    ∧ pc.remaining_mb = pc.effective_mb
    ∧ (∀ seg : Seg, pc.daily_cap = none →
        ∀ c : ℚ, contrib_of seg pc = some c → c = pc.remaining_mb)
    ∧ (∀ seg : Seg, pc.start_time.getD seg.start + pc.effective_days ≤ seg.start →
        contrib_of seg pc = none) := by
  rcases setup_plans_mem _ combo [] plans hset pc hmem with ⟨p, _, hpc⟩
  subst hpc
  refine ⟨by simp [mk_state], by simp [mk_state], by simp [mk_state], ?_, ?_⟩
  · intro seg h c hc
    exact contrib_of_total_cap seg _ h c hc
  · intro seg h
    exact contrib_of_expired seg _ h

/-- C3 witness: the concrete 50 MB / 2-day plan at rate 100 gets effective
capacity 50 and effective validity 1/2, and its working copy starts with
`remaining_mb` equal to the effective capacity. -/
theorem C3_effective_capacity_and_validity_cap_the_solver_witness :
    setup_plans ((c3_itin.map Step.mb).sum / (c3_itin.map Step.days).sum)
        [c3_plan] [] = some [c3_state]
    ∧ c3_state.effective_mb = min c3_state.base.data_mb
        (c3_state.base.validity_days * ((c3_itin.map Step.mb).sum / (c3_itin.map Step.days).sum))
    ∧ c3_state.effective_days = min c3_state.base.validity_days
        (c3_state.base.data_mb / ((c3_itin.map Step.mb).sum / (c3_itin.map Step.days).sum))
    ∧ c3_state.remaining_mb = c3_state.effective_mb := by
  have hset : setup_plans ((c3_itin.map Step.mb).sum / (c3_itin.map Step.days).sum)
      [c3_plan] [] = some [c3_state] := by
    norm_num [setup_plans, mk_state, c3_itin, c3_plan, c3_state]
  have h := C3_effective_capacity_and_validity_cap_the_solver c3_itin [c3_plan]
    [c3_state] c3_state hset (by simp)
  exact ⟨hset, h.1, h.2.1, h.2.2.1⟩

/-! ## Claim C4: candidate ordering within a leg -/

theorem key_le_trans (a b c : ℚ × ℚ) (hab : key_le a b = true) (hbc : key_le b c = true) :
    key_le a c = true := by
  simp only [key_le, decide_eq_true_eq] at *
  rcases hab with h | ⟨h1, h2⟩ <;> rcases hbc with h' | ⟨h1', h2'⟩
  · exact Or.inl (h.trans h')
  · exact Or.inl (h1' ▸ h)
  · exact Or.inl (h1 ▸ h')
  · exact Or.inr ⟨h1.trans h1', h2.trans h2'⟩

theorem key_le_total (a b : ℚ × ℚ) : key_le a b = true ∨ key_le b a = true := by
  simp only [key_le, decide_eq_true_eq]
  rcases lt_trichotomy a.1 b.1 with h | h | h
  · exact Or.inl (Or.inl h)
  · rcases le_total a.2 b.2 with h2 | h2
    · exact Or.inl (Or.inr ⟨h, h2⟩)
    · exact Or.inr (Or.inr ⟨h.symm, h2⟩)
  · exact Or.inr (Or.inl h)

theorem pairwise_stable_insert (le : α → α → Bool)
    (htrans : ∀ a b c, le a b = true → le b c = true → le a c = true)
    (htot : ∀ a b, le a b = true ∨ le b a = true) (x : α) :
    ∀ l : List α, l.Pairwise (fun a b => le a b = true) →
      (stable_insert le x l).Pairwise (fun a b => le a b = true) := by
  intro l
  induction l with
  | nil => intro _; simp [stable_insert]
  | cons y ys ih =>
    intro h
    rcases List.pairwise_cons.1 h with ⟨hy, hys⟩
    by_cases hc : (le x y = true ∧ ¬ le y x = true)
    · rw [stable_insert, if_pos hc]
      refine List.pairwise_cons.2 ⟨?_, h⟩
      intro z hz
      rcases List.mem_cons.1 hz with h' | h'
      · rw [h']; exact hc.1
      · exact htrans x y z hc.1 (hy z h')
    · rw [stable_insert, if_neg hc]
      refine List.pairwise_cons.2 ⟨?_, ih hys⟩
      intro z hz
      rcases (mem_stable_insert le x z ys).1 hz with h' | h'
      · rw [h']
        rcases htot x y with hxy | hyx
        · by_contra hne
          exact hc ⟨hxy, fun hyx2 => hne hyx2⟩
        · exact hyx
      · exact hy z h'

theorem pairwise_stable_sort (le : α → α → Bool)
    (htrans : ∀ a b c, le a b = true → le b c = true → le a c = true)
    (htot : ∀ a b, le a b = true ∨ le b a = true) (l : List α) :
    (stable_sort le l).Pairwise (fun a b => le a b = true) := by
  suffices h : ∀ (l acc : List α), acc.Pairwise (fun a b => le a b = true) →
      (l.foldl (fun acc x => stable_insert le x acc) acc).Pairwise
        (fun a b => le a b = true) by
    exact h l [] (by simp)
  intro l
  induction l with
  | nil => intro acc h; simpa using h
  | cons y ys ih =>
    intro acc h
    simp only [List.foldl_cons]
    exact ih _ (pairwise_stable_insert le htrans htot y acc h)

/-- C4 counterexample: on this concrete leg the code consumes the two
equally-activated candidates in the order `[c4_pA, c4_pB]` (positions
`[0, 1]`), yet `c4_pB`'s remaining validity (3 days) is strictly shorter
than `c4_pA`'s (9 days): the claimed shorter-remaining-validity-first
order is violated, because the sort key uses the plan's raw
`validity_days` (10 vs 12), not its remaining validity. -/
theorem C4_counterexample_order_not_by_remaining_validity :
    (sort_contribs [c4_pA, c4_pB] (plan_contribs c4_seg [c4_pA, c4_pB])).map Prod.fst
        = [0, 1]
    ∧ c4_pA.start_time.isSome = true
    ∧ c4_pB.start_time.isSome = true
    ∧ rem_validity c4_seg c4_pB < rem_validity c4_seg c4_pA := by
  refine ⟨?_, rfl, rfl, by norm_num [rem_validity, c4_pA, c4_pB, c4_seg]⟩
  norm_num [sort_contribs, stable_sort, stable_insert, key_le, sort_key,
    plan_contribs, plan_contribs_from, contrib_of, c4_seg, c4_pA, c4_pB]

/-- C4 (amended): within each leg the solver consumes eligible candidates
with every already-activated plan before every not-yet-activated one, and
among plans of equal activation status in ascending order of the plan
record's raw `validity_days` (not of remaining validity). -/
theorem C4_consumption_order_activated_then_raw_validity (seg : Seg)
    (plans : List PlanState) :
    (sort_contribs plans (plan_contribs seg plans)).Pairwise (fun a b =>
      ((plans.getD b.1 default).start_time.isSome = true →
        (plans.getD a.1 default).start_time.isSome = true)
      ∧ ((plans.getD a.1 default).start_time.isSome =
            (plans.getD b.1 default).start_time.isSome →
          (plans.getD a.1 default).base.validity_days ≤
            (plans.getD b.1 default).base.validity_days)) := by
  have hp := pairwise_stable_sort
    (fun x y => key_le (sort_key plans x) (sort_key plans y))
    (fun a b c => key_le_trans _ _ _) (fun a b => key_le_total _ _)
    (plan_contribs seg plans)
  refine hp.imp ?_
  intro a b hab
  simp only [key_le, sort_key, decide_eq_true_eq] at hab
  cases ha : (plans.getD a.1 default).start_time.isSome <;>
    cases hb : (plans.getD b.1 default).start_time.isSome <;>
      rw [ha, hb] at hab
  · -- neither activated: keys (0, v)
    refine ⟨fun h => h, fun _ => ?_⟩
    norm_num at hab
    simpa using hab
  · -- a not activated, b activated: key 0 before key -1 is impossible
    norm_num at hab
  · -- a activated, b not: both conjuncts hold regardless of hab
    exact ⟨fun _ => rfl, fun h => absurd h (by simp)⟩
  · -- both activated: keys (-1, v)
    refine ⟨fun h => h, fun _ => ?_⟩
    norm_num at hab
    simpa using hab

/-! ## Claim C8: duplicate new-user-only providers rejected at setup -/

/-- The provider set recorded during setup only grows. -/
theorem setup_seen_mono (r : ℚ) :
    ∀ (combo : List Plan) (seen : List String) (q : Plan),
      q ∈ combo → q.new_user_only = true → q.provider_id ∈ seen →
      setup_plans r combo seen = none := by
  intro combo
  induction combo with
  | nil => intro seen q hq; simp at hq
  | cons p rest ih =>
    intro seen q hq hnew hseen
    by_cases hcond : (p.new_user_only = true ∧ p.provider_id ∈ seen)
    · simp [setup_plans, hcond]
    · rcases List.mem_cons.1 hq with h | h
      · exact absurd ⟨h ▸ hnew, h ▸ hseen⟩ hcond
      · have hseen' : q.provider_id ∈
            (if p.new_user_only = true then p.provider_id :: seen else seen) := by
          by_cases hp : p.new_user_only = true
          · simp [hp, hseen]
          · simp only [Bool.not_eq_true] at hp
            simp [hp, hseen]
        have h1 := ih _ q h hnew hseen'
        simp [setup_plans, hcond, h1]

/-- A combo containing two `new_user_only` plans of the same provider is
rejected by the setup loop, whatever providers were seen before. -/
theorem setup_dup_new_user_none (r : ℚ) :
    ∀ (pre : List Plan) (p : Plan) (mid : List Plan) (q : Plan) (post : List Plan)
      (seen : List String),
      p.new_user_only = true → q.new_user_only = true →
      p.provider_id = q.provider_id →
      setup_plans r (pre ++ (p :: (mid ++ (q :: post)))) seen = none := by
  intro pre
  induction pre with
  | nil =>
    intro p mid q post seen hp hq hpq
    by_cases hcond : (p.new_user_only = true ∧ p.provider_id ∈ seen)
    · simp [setup_plans, hcond]
    · have hmem : q ∈ mid ++ q :: post := by simp
      have hseen' : q.provider_id ∈ p.provider_id :: seen := by
        simp [hpq.symm]
      have h1 := setup_seen_mono r (mid ++ q :: post) (p.provider_id :: seen) q
        hmem hq hseen'
      simp [setup_plans, hcond, hp, h1]
  | cons x pre' ih =>
    intro p mid q post seen hp hq hpq
    by_cases hcond : (x.new_user_only = true ∧ x.provider_id ∈ seen)
    · simp [setup_plans, hcond]
    · have h1 := ih p mid q post
        (if x.new_user_only = true then x.provider_id :: seen else seen) hp hq hpq
      simp only [List.cons_append, setup_plans, hcond, if_false, ite_false]
      have h2 : setup_plans r (List.append pre' (p :: (mid ++ (q :: post))))
          (if x.new_user_only = true then x.provider_id :: seen else seen) = none := h1
      rw [h2]
      rfl

/-- C8: a candidate multiset containing two (or more) purchases of
`new_user_only` plans of the same provider is rejected as invalid during
the setup pass itself — `setup_plans` returns `none`, so the evaluator
returns the invalid result before the timeline solver or the cost
accounting can run. -/
theorem C8_duplicate_new_user_provider_rejected_before_solving
    (itin : List Step) (hassle : ℚ) (pre mid post : List Plan) (p q : Plan)
    (hp : p.new_user_only = true) (hq : q.new_user_only = true)
    (hpq : p.provider_id = q.provider_id) :
    setup_plans ((itin.map Step.mb).sum / (itin.map Step.days).sum)
        (pre ++ (p :: (mid ++ (q :: post)))) [] = none
    ∧ evaluate_itinerary itin (pre ++ (p :: (mid ++ (q :: post)))) hassle = invalid_itin := by
  have hnone := setup_dup_new_user_none
    ((itin.map Step.mb).sum / (itin.map Step.days).sum) pre p mid q post [] hp hq hpq
  refine ⟨hnone, ?_⟩
  simp only [evaluate_itinerary]
  rw [hnone]

/-- C8 witness: two copies of the same `new_user_only` plan are rejected
at setup on the concrete fixture. -/
theorem C8_duplicate_new_user_provider_rejected_before_solving_witness :
    c8_plan.new_user_only = true
    ∧ setup_plans ((c8_itin.map Step.mb).sum / (c8_itin.map Step.days).sum)
        [c8_plan, c8_plan] [] = none
    ∧ evaluate_itinerary c8_itin [c8_plan, c8_plan] (1/2) = invalid_itin := by
  have h := C8_duplicate_new_user_provider_rejected_before_solving c8_itin (1/2)
    [] [] [] c8_plan c8_plan rfl rfl rfl
  exact ⟨rfl, h.1, h.2⟩

/-! ## Cost-accountant lemmas (`evaluate_combination`) -/

theorem eval_purchases_append (h : ℚ) :
    ∀ (l1 l2 : List (MPlan × ℕ)) (used : List String),
      eval_purchases h (l1 ++ l2) used =
        ((eval_purchases h l1 used).1 ++
           (eval_purchases h l2 (eval_purchases h l1 used).2).1,
         (eval_purchases h l2 (eval_purchases h l1 used).2).2) := by
  intro l1
  induction l1 with
  | nil => intro l2 used; simp [eval_purchases]
  | cons x l1' ih =>
    intro l2 used
    obtain ⟨p, q⟩ := x
    simp [eval_purchases, ih]

theorem eval_purchase_used_sub (h : ℚ) (used : List String) (p : MPlan) (qty : ℕ) :
    ∀ x ∈ used, x ∈ (eval_purchase h used p qty).2 := by
  intro x hx
  unfold eval_purchase
  split_ifs <;> simp [hx]

theorem eval_purchases_used_mono (h : ℚ) :
    ∀ (l : List (MPlan × ℕ)) (used : List String) (x : String),
      x ∈ used → x ∈ (eval_purchases h l used).2 := by
  intro l
  induction l with
  | nil => intro used x hx; simpa [eval_purchases] using hx
  | cons c rest ih =>
    intro used x hx
    obtain ⟨p, q⟩ := c
    simp only [eval_purchases]
    exact ih _ x (eval_purchase_used_sub h used p q x hx)

/-- A one-time-promo purchase whose provider has not yet consumed its
promo: one unit at the promo price, `qty - 1` at regular, provider marked
consumed. -/
theorem eval_purchase_onetime_fresh (h : ℚ) (used : List String) (p : MPlan)
    (qty : ℕ) (pp : ℚ) (h1 : p.provider_promo_type = "one-time")
    (h2 : p.usd_promo_price = some pp) (h3 : pp < regular_of p)
    (h4 : p.provider_id ∉ used) :
    (eval_purchase h used p qty).1.plan_display_cost
        = pp + regular_of p * ((qty : ℚ) - 1)
    ∧ (eval_purchase h used p qty).1.used_promo = true
    ∧ (eval_purchase h used p qty).2 = p.provider_id :: used := by
  have hfree : ¬ (regular_of p = 0 ∧
      (p.usd_promo_price = none ∨ p.usd_promo_price = some 0)) := by
    rintro ⟨hr, hor⟩
    rcases hor with hn | h0
    · rw [h2] at hn; exact absurd hn (by simp)
    · rw [h2] at h0
      have hpp : pp = 0 := Option.some.inj h0
      rw [hpp, hr] at h3
      exact absurd h3 (lt_irrefl 0)
  have hcan : (p.usd_promo_price.isSome = true ∧
        p.usd_promo_price.getD 0 < regular_of p)
      ∧ (p.provider_promo_type = "one-time" → p.provider_id ∉ used) :=
    ⟨⟨by rw [h2]; rfl, by rw [h2]; simpa using h3⟩, fun _ => h4⟩
  unfold eval_purchase
  rw [if_neg hfree, if_pos hcan, if_pos h1]
  refine ⟨?_, rfl, rfl⟩
  simp [mk_purchase_eval, h2]

/-- A further purchase from a one-time provider whose promo is already
consumed bills every unit at the regular price and leaves the consumed
set unchanged. -/
theorem eval_purchase_onetime_blocked (h : ℚ) (used : List String) (p : MPlan)
    (qty : ℕ) (h1 : p.provider_promo_type = "one-time")
    (h4 : p.provider_id ∈ used) :
    (eval_purchase h used p qty).1.plan_display_cost = regular_of p * (qty : ℚ)
    ∧ (eval_purchase h used p qty).2 = used := by
  by_cases hfree : (regular_of p = 0 ∧
      (p.usd_promo_price = none ∨ p.usd_promo_price = some 0))
  · unfold eval_purchase
    rw [if_pos hfree]
    refine ⟨?_, rfl⟩
    simp [mk_purchase_eval, hfree.1]
  · have hcan : ¬ ((p.usd_promo_price.isSome = true ∧
          p.usd_promo_price.getD 0 < regular_of p)
        ∧ (p.provider_promo_type = "one-time" → p.provider_id ∉ used)) := by
      rintro ⟨_, himp⟩
      exact (himp h1) h4
    unfold eval_purchase
    rw [if_neg hfree, if_neg hcan]
    exact ⟨rfl, rfl⟩

/-- C2: for an ordered purchase sequence, when a purchase's provider has a
one-time promo recurrence and a promo price strictly below the regular
price, and no earlier purchase has consumed that provider's promo, the
accountant bills one unit at the promo price plus `qty - 1` units at
regular, marks the provider consumed, and every later one-time purchase
from that provider bills all units at the regular price. -/
theorem C2_one_time_promo_billed_exactly_once (h : ℚ)
    (pre post : List (MPlan × ℕ)) (p : MPlan) (qty : ℕ) (pp : ℚ)
    (h1 : p.provider_promo_type = "one-time")
    (h2 : p.usd_promo_price = some pp)
    (h3 : pp < regular_of p)
    (h4 : p.provider_id ∉ (eval_purchases h pre []).2) :
    (eval_purchases h (pre ++ ((p, qty) :: post)) []).1 =
        (eval_purchases h pre []).1 ++
          (eval_purchase h (eval_purchases h pre []).2 p qty).1 ::
            (eval_purchases h post
              (eval_purchase h (eval_purchases h pre []).2 p qty).2).1
    ∧ (eval_purchase h (eval_purchases h pre []).2 p qty).1.plan_display_cost
        = pp + regular_of p * ((qty : ℚ) - 1)
    ∧ (eval_purchase h (eval_purchases h pre []).2 p qty).1.used_promo = true
    ∧ p.provider_id ∈ (eval_purchase h (eval_purchases h pre []).2 p qty).2
    ∧ ∀ (post1 : List (MPlan × ℕ)) (p2 : MPlan) (q2 : ℕ)
        (post2 : List (MPlan × ℕ)),
        post = post1 ++ ((p2, q2) :: post2) →
        p2.provider_id = p.provider_id →
        p2.provider_promo_type = "one-time" →
        (eval_purchase h
            (eval_purchases h post1
              (eval_purchase h (eval_purchases h pre []).2 p qty).2).2
            p2 q2).1.plan_display_cost
          = regular_of p2 * (q2 : ℚ) := by
  have hmid := eval_purchase_onetime_fresh h (eval_purchases h pre []).2 p qty pp
    h1 h2 h3 h4
  refine ⟨?_, hmid.1, hmid.2.1, ?_, ?_⟩
  · rw [eval_purchases_append h pre ((p, qty) :: post) []]
    simp [eval_purchases]
  · rw [hmid.2.2]; simp
  · intro post1 p2 q2 post2 _ hpid2 hot2
    have hin : p.provider_id ∈
        (eval_purchases h post1
          (eval_purchase h (eval_purchases h pre []).2 p qty).2).2 := by
      apply eval_purchases_used_mono
      rw [hmid.2.2]; simp
    exact (eval_purchase_onetime_blocked h _ p2 q2 hot2 (hpid2 ▸ hin)).1

/-- C2 witness: buying quantity 2 of the $10-regular / $5-promo one-time
plan costs exactly $15. -/
theorem C2_one_time_promo_billed_exactly_once_witness :
    c2_plan.usd_promo_price = some 5 ∧ regular_of c2_plan = 10 ∧
      (eval_purchase (1/2) (eval_purchases (1/2) [] []).2 c2_plan 2).1.plan_display_cost
        = 15 := by
  have h := C2_one_time_promo_billed_exactly_once (1/2) [] [] c2_plan 2 5 rfl rfl
    (by norm_num [regular_of, c2_plan]) (by simp [eval_purchases])
  refine ⟨rfl, rfl, ?_⟩
  rw [h.2.1]
  norm_num [regular_of, c2_plan]

/-! ## Claim C6: accounts needed per purchase -/

/-- C6 counterexample: a free plan with `can_top_up = false` and
`new_user_only = false` bought with quantity 2 needs only 1 account in the
code (the free-plan branch ignores `can_top_up`), not the 2 accounts the
claim's "in every other case it requires q accounts" predicts. -/
theorem C6_counterexample_free_plan_needs_one_account :
    c6_plan.can_top_up = false ∧ c6_plan.new_user_only = false
    ∧ (eval_purchase (1/2) [] c6_plan 2).1.accounts_needed = 1
    ∧ (eval_purchase (1/2) [] c6_plan 2).1.accounts_needed ≠ 2 := by
  refine ⟨rfl, rfl, ?_, ?_⟩ <;>
    norm_num [eval_purchase, mk_purchase_eval, regular_of, c6_plan]

/-- C6 (amended): a purchase of quantity `q` needs 1 account when
`can_top_up ∧ ¬new_user_only`, `q` accounts when `new_user_only`, and `q`
accounts otherwise — except a free plan (regular price 0 and promo absent
or 0), which needs 1 account whenever `new_user_only` is false, regardless
of `can_top_up`.  Activations/top-ups: `(1, q-1)` when
`can_top_up ∧ q > 1 ∧ ¬new_user_only`, else `(q, 0)`. -/
theorem C6_accounts_activations_topups_formula (h : ℚ) (used : List String)
    (p : MPlan) (qty : ℕ) :
    (eval_purchase h used p qty).1.accounts_needed
        = (if regular_of p = 0 ∧ (p.usd_promo_price = none ∨ p.usd_promo_price = some 0)
           then (if p.new_user_only then qty else 1)
           else if p.new_user_only then qty else if p.can_top_up then 1 else qty)
    ∧ (eval_purchase h used p qty).1.activations_for_plan
        = (if p.can_top_up = true ∧ qty > 1 ∧ ¬ p.new_user_only = true then 1 else qty)
    ∧ (eval_purchase h used p qty).1.topups_for_plan
        = (if p.can_top_up = true ∧ qty > 1 ∧ ¬ p.new_user_only = true
           then qty - 1 else 0) := by
  unfold eval_purchase
  split_ifs <;> simp_all [mk_purchase_eval]

/-! ## Claim C5: ranking cost vs cash cost -/

theorem sum_map_add {α : Type} (l : List α) (f g : α → ℚ) :
    (l.map (fun x => f x + g x)).sum = (l.map f).sum + (l.map g).sum := by
  induction l with
  | nil => simp
  | cons x xs ih => simp [ih]; ring

theorem list_sum_eq_zero_iff_of_nonneg :
    ∀ (l : List ℚ), (∀ x ∈ l, 0 ≤ x) → (l.sum = 0 ↔ ∀ x ∈ l, x = 0) := by
  intro l
  induction l with
  | nil => intro _; simp
  | cons x xs ih =>
    intro h
    have hx : 0 ≤ x := h x (by simp)
    have hxs : ∀ y ∈ xs, 0 ≤ y := fun y hy => h y (by simp [hy])
    have hs : 0 ≤ xs.sum := List.sum_nonneg hxs
    constructor
    · intro h0
      rw [List.sum_cons] at h0
      have hx0 : x = 0 := by linarith
      have hs0 : xs.sum = 0 := by linarith
      intro y hy
      rcases List.mem_cons.1 hy with hxy | hys
      · rw [hxy]; exact hx0
      · exact (ih hxs).1 hs0 y hys
    · intro hall
      rw [List.sum_cons, hall x (by simp), (ih hxs).2 (fun y hy => hall y (by simp [hy]))]
      ring

/-- The hassle surcharge of one purchase is its per-plan penalty times
`max 0 (accounts - 1)`, whatever the pricing branch. -/
theorem eval_purchase_hassle_eq (h : ℚ) (used : List String) (p : MPlan) (qty : ℕ) :
    (eval_purchase h used p qty).1.hassle_cost
      = (p.hassle_penalty_per_account.getD h)
          * max 0 (((eval_purchase h used p qty).1.accounts_needed : ℚ) - 1) := by
  unfold eval_purchase
  split_ifs <;> rfl

theorem eval_purchase_hassle_nonneg (h : ℚ) (used : List String) (p : MPlan)
    (qty : ℕ) (hn : 0 ≤ p.hassle_penalty_per_account.getD h) :
    0 ≤ (eval_purchase h used p qty).1.hassle_cost := by
  rw [eval_purchase_hassle_eq]
  exact mul_nonneg hn (le_max_left 0 _)

theorem eval_purchases_hassle_nonneg (h : ℚ) :
    ∀ (l : List (MPlan × ℕ)) (used : List String),
      (∀ pq ∈ l, 0 ≤ pq.1.hassle_penalty_per_account.getD h) →
      ∀ e ∈ (eval_purchases h l used).1, 0 ≤ e.hassle_cost := by
  intro l
  induction l with
  | nil => intro used _ e he; simp [eval_purchases] at he
  | cons c rest ih =>
    intro used hl e he
    obtain ⟨p, q⟩ := c
    simp only [eval_purchases, List.mem_cons] at he
    rcases he with he | he
    · rw [he]
      exact eval_purchase_hassle_nonneg h used p q (hl (p, q) (by simp))
    · exact ih _ (fun pq hpq => hl pq (by simp [hpq])) e he

theorem rollback_length (ops : List (ℕ × RbOp)) (plans : List PlanState) :
    (rollback ops plans).length = plans.length := by
  unfold rollback
  generalize ops.reverse = l
  induction l generalizing plans with
  | nil => rfl
  | cons o rest ih =>
    rw [List.foldl_cons]
    rw [ih]
    obtain ⟨i, op⟩ := o
    cases op <;> simp

theorem solve_segment_length :
    ∀ (segs : List Seg) (plans : List PlanState),
      (solve_segment segs plans).2.length = plans.length := by
  intro segs
  induction segs with
  | nil => intro plans; rfl
  | cons seg rest ih =>
    intro plans
    by_cases hpre : ((plan_contribs seg plans).map Prod.snd).sum < seg.mb_needed
    · simp [solve_segment, hpre]
    · by_cases hleft :
          1 < (consume_loop seg.start seg.mb_needed
                (sort_contribs plans (plan_contribs seg plans)) plans).1
      · have heq : solve_segment (seg :: rest) plans =
            (false,
             rollback (consume_loop seg.start seg.mb_needed
                 (sort_contribs plans (plan_contribs seg plans)) plans).2.2
               (consume_loop seg.start seg.mb_needed
                 (sort_contribs plans (plan_contribs seg plans)) plans).2.1) := by
          simp only [solve_segment]
          rw [if_neg hpre, if_pos hleft]
        rw [heq, rollback_length, consume_loop_length]
      · by_cases hrec :
            (solve_segment rest (consume_loop seg.start seg.mb_needed
               (sort_contribs plans (plan_contribs seg plans)) plans).2.1).1 = true
        · have heq : solve_segment (seg :: rest) plans =
              (true,
               (solve_segment rest (consume_loop seg.start seg.mb_needed
                  (sort_contribs plans (plan_contribs seg plans)) plans).2.1).2) := by
            simp only [solve_segment]
            rw [if_neg hpre, if_neg hleft, if_pos hrec]
          rw [heq]
          show (solve_segment rest _).2.length = _
          rw [ih, consume_loop_length]
        · have heq : solve_segment (seg :: rest) plans =
              (false,
               rollback (consume_loop seg.start seg.mb_needed
                   (sort_contribs plans (plan_contribs seg plans)) plans).2.2
                 (solve_segment rest (consume_loop seg.start seg.mb_needed
                    (sort_contribs plans (plan_contribs seg plans)) plans).2.1).2) := by
            simp only [solve_segment]
            rw [if_neg hpre, if_neg hleft, if_neg hrec]
          rw [heq]
          show (rollback _ _).length = _
          rw [rollback_length, ih, consume_loop_length]

theorem setup_plans_length (r : ℚ) :
    ∀ (combo : List Plan) (seen : List String) (plans : List PlanState),
      setup_plans r combo seen = some plans → plans.length = combo.length := by
  intro combo
  induction combo with
  | nil =>
    intro seen plans hset
    simp only [setup_plans, Option.some.injEq] at hset
    rw [← hset]; rfl
  | cons p rest ih =>
    intro seen plans hset
    rw [setup_plans] at hset
    by_cases hcond : (p.new_user_only = true ∧ p.provider_id ∈ seen)
    · rw [if_pos hcond] at hset; exact absurd hset (by simp)
    · rw [if_neg hcond] at hset
      rcases Option.map_eq_some'.1 hset with ⟨l, hl, hcons⟩
      rw [← hcons]
      simp [ih _ l hl]

/-- C5 (amended): for the multi-region evaluator, the ranking cost of a
feasible result is the cash cost plus the sum over purchases of that
purchase's per-plan hassle penalty times `max 0 (accounts_needed - 1)` —
a per-purchase surcharge, not `hassle_penalty × max 0 (total_accounts - 1)`.
With nonnegative penalties `ranking_cost ≥ display_cost`, with equality
iff every individual purchase's surcharge is zero (not iff the total
accounts are ≤ 1).  The itinerary evaluator instead adds
`(number of plans - 1) × hassle_penalty`. -/
theorem C5_ranking_cost_is_cash_plus_per_purchase_hassle
    (purchases : List (MPlan × ℕ)) (trip_days total_mb h : ℚ)
    (max_act max_top : ℕ) (r : CombResult)
    (hres : evaluate_combination purchases trip_days total_mb h max_act max_top
      = some r) :
    (r.ranking_cost = r.display_cost +
        ((eval_purchases h purchases []).1.map PurchaseEval.hassle_cost).sum)
    ∧ ((∀ pq ∈ purchases, 0 ≤ pq.1.hassle_penalty_per_account.getD h) →
        r.display_cost ≤ r.ranking_cost
        ∧ (r.ranking_cost = r.display_cost ↔
            ∀ e ∈ (eval_purchases h purchases []).1, e.hassle_cost = 0))
    ∧ (∀ (itin : List Step) (combo : List Plan) (hp : ℚ),
        (evaluate_itinerary itin combo hp).valid = true →
        (evaluate_itinerary itin combo hp).ranking_cost =
          (evaluate_itinerary itin combo hp).display_cost +
            ((combo.length : ℚ) - 1) * hp) := by
  have hr : r.ranking_cost = r.display_cost +
      ((eval_purchases h purchases []).1.map PurchaseEval.hassle_cost).sum := by
    simp only [evaluate_combination] at hres
    split_ifs at hres with h1 h2 h3
    all_goals first
      | exact Option.noConfusion hres
      | (have heq := Option.some.inj hres
         subst heq
         exact sum_map_add _ _ _)
  refine ⟨hr, ?_, ?_⟩
  · intro hnn
    have hterms : ∀ e ∈ (eval_purchases h purchases []).1, 0 ≤ e.hassle_cost :=
      eval_purchases_hassle_nonneg h purchases [] hnn
    have hsum : 0 ≤ ((eval_purchases h purchases []).1.map
        PurchaseEval.hassle_cost).sum := by
      apply List.sum_nonneg
      intro x hx
      rcases List.mem_map.1 hx with ⟨e, he, hxe⟩
      rw [← hxe]; exact hterms e he
    constructor
    · rw [hr]; linarith
    · rw [hr]
      constructor
      · intro h0
        have hz : ((eval_purchases h purchases []).1.map
            PurchaseEval.hassle_cost).sum = 0 := by linarith
        have := (list_sum_eq_zero_iff_of_nonneg _ (by
          intro x hx
          rcases List.mem_map.1 hx with ⟨e, he, hxe⟩
          rw [← hxe]; exact hterms e he)).1 hz
        intro e he
        exact this e.hassle_cost (List.mem_map.2 ⟨e, he, rfl⟩)
      · intro hall
        have hz : ((eval_purchases h purchases []).1.map
            PurchaseEval.hassle_cost).sum = 0 := by
          apply (list_sum_eq_zero_iff_of_nonneg _ (by
            intro x hx
            rcases List.mem_map.1 hx with ⟨e, he, hxe⟩
            rw [← hxe]; exact hterms e he)).2
          intro x hx
          rcases List.mem_map.1 hx with ⟨e, he, hxe⟩
          rw [← hxe]; exact hall e he
        rw [hz]; ring
  · intro itin combo hp hvalid
    simp only [evaluate_itinerary] at hvalid ⊢
    set s := setup_plans ((itin.map Step.mb).sum / (itin.map Step.days).sum)
        combo [] with hs
    clear_value s
    cases s with
    | none =>
      simp [invalid_itin] at hvalid
    | some plans =>
      by_cases htv : (check_timeline_validity plans (mk_segments itin)).1 = true
      · have hlen : (check_timeline_validity plans (mk_segments itin)).2.length
            = combo.length := by
          unfold check_timeline_validity
          rw [solve_segment_length]
          exact setup_plans_length _ combo [] plans hs.symm
        simp only [htv, if_true]
        rw [hlen]
      · simp only [htv, Bool.false_eq_true, if_false] at hvalid
        simp [invalid_itin] at hvalid

/-- C5 counterexample: a feasible two-provider solution (one account per
purchase) has `ranking_cost = display_cost = 10` and `total_accounts = 2`;
the claimed formula would give `10 + 0.5 × max(0, 2-1) = 10.5`, and the
claimed "equality iff total accounts ≤ 1" fails as well. -/
theorem C5_counterexample_formula_and_iff_fail :
    evaluate_combination [(c5_pA, 1), (c5_pB, 1)] 15 10000 (1/2) 3 15
        = some c5_result
    ∧ c5_result.ranking_cost ≠ c5_result.display_cost
        + (1/2) * max 0 ((c5_result.total_accounts : ℚ) - 1)
    ∧ c5_result.total_accounts > 1
    ∧ c5_result.ranking_cost = c5_result.display_cost := by
  refine ⟨?_, by norm_num [c5_result], by norm_num [c5_result], by norm_num [c5_result]⟩
  norm_num [evaluate_combination, eval_purchases, eval_purchase, mk_purchase_eval,
    regular_of, activation_count, c5_pA, c5_pB, c5_result]

/-- C5 witness: the amended formula on the concrete two-provider run. -/
theorem C5_ranking_cost_is_cash_plus_per_purchase_hassle_witness :
    evaluate_combination [(c5_pA, 1), (c5_pB, 1)] 15 10000 (1/2) 3 15
        = some c5_result
    ∧ c5_result.ranking_cost = c5_result.display_cost +
        ((eval_purchases (1/2) [(c5_pA, 1), (c5_pB, 1)] []).1.map
          PurchaseEval.hassle_cost).sum
    ∧ c5_result.display_cost ≤ c5_result.ranking_cost := by
  have hres : evaluate_combination [(c5_pA, 1), (c5_pB, 1)] 15 10000 (1/2) 3 15
      = some c5_result := by
    norm_num [evaluate_combination, eval_purchases, eval_purchase, mk_purchase_eval,
      regular_of, activation_count, c5_pA, c5_pB, c5_result]
  have h := C5_ranking_cost_is_cash_plus_per_purchase_hassle
    [(c5_pA, 1), (c5_pB, 1)] 15 10000 (1/2) 3 15 c5_result hres
  have hnn : ∀ pq ∈ [(c5_pA, 1), (c5_pB, 1)],
      0 ≤ pq.1.hassle_penalty_per_account.getD (1/2 : ℚ) := by
    intro pq hpq
    rcases List.mem_cons.1 hpq with hA | hB
    · rw [hA]; norm_num [c5_pA]
    · rcases List.mem_cons.1 hB with hB | hB
      · rw [hB]; norm_num [c5_pB]
      · simp at hB
  exact ⟨hres, h.1, (h.2.1 hnn).1⟩

/-! ## Claim C7: bounded top-N retention -/

theorem entry_le_trans (a b c : HeapEntry) (hab : entry_le a b) (hbc : entry_le b c) :
    entry_le a c := by
  rcases hab with h | ⟨h1, h2⟩ <;> rcases hbc with h' | ⟨h1', h2'⟩
  · exact Or.inl (h.trans h')
  · exact Or.inl (h1' ▸ h)
  · exact Or.inl (h1 ▸ h')
  · exact Or.inr ⟨h1.trans h1', h2.trans h2'⟩

theorem entry_lt_le (a b : HeapEntry) (h : entry_lt a b = true) : entry_le a b := by
  simp only [entry_lt, decide_eq_true_eq] at h
  rcases h with h | ⟨h1, h2⟩
  · exact Or.inl h
  · exact Or.inr ⟨h1, le_of_lt h2⟩

theorem entry_not_lt_le (a b : HeapEntry) (h : ¬ entry_lt a b = true) : entry_le b a := by
  simp only [entry_lt, decide_eq_true_eq, not_or, not_and, not_lt] at h
  obtain ⟨h1, h2⟩ := h
  rcases lt_or_eq_of_le h1 with hlt | heq
  · exact Or.inl hlt
  · exact Or.inr ⟨heq, h2 heq.symm⟩

/-- `sol_step` on a full heap: compare against the root and replace when
strictly better. -/
theorem sol_step_cons (top_n : ℕ) (x : HeapEntry) (xs : List HeapEntry) (r : ℚ)
    (cnt : ℕ) (h : ¬ (x :: xs : List HeapEntry).length < top_n) :
    sol_step top_n (x :: xs) r cnt =
      if r < -x.1 then heap_replace (-r, cnt, r) (x :: xs) else x :: xs := by
  unfold sol_step
  rw [if_neg h]

theorem mem_heap_push (e a : HeapEntry) :
    ∀ (l : List HeapEntry), a ∈ heap_push e l ↔ a = e ∨ a ∈ l := by
  intro l
  induction l with
  | nil => simp [heap_push]
  | cons x xs ih =>
    by_cases hc : entry_lt e x = true
    · simp [heap_push, hc]
    · simp only [heap_push, if_neg hc, List.mem_cons, ih]
      tauto

theorem length_heap_push (e : HeapEntry) :
    ∀ (l : List HeapEntry), (heap_push e l).length = l.length + 1 := by
  intro l
  induction l with
  | nil => rfl
  | cons x xs ih =>
    by_cases hc : entry_lt e x = true
    · simp [heap_push, hc]
    · simp [heap_push, hc, ih]

theorem pairwise_heap_push (e : HeapEntry) :
    ∀ (l : List HeapEntry), l.Pairwise entry_le →
      (heap_push e l).Pairwise entry_le := by
  intro l
  induction l with
  | nil => intro _; simp [heap_push, List.pairwise_cons]
  | cons x xs ih =>
    intro h
    rcases List.pairwise_cons.1 h with ⟨hx, hxs⟩
    by_cases hc : entry_lt e x = true
    · rw [heap_push, if_pos hc]
      refine List.pairwise_cons.2 ⟨?_, h⟩
      intro z hz
      rcases List.mem_cons.1 hz with h' | h'
      · rw [h']; exact entry_lt_le e x hc
      · exact entry_le_trans e x z (entry_lt_le e x hc) (hx z h')
    · rw [heap_push, if_neg hc]
      refine List.pairwise_cons.2 ⟨?_, ih hxs⟩
      intro z hz
      rcases (mem_heap_push e z xs).1 hz with h' | h'
      · rw [h']; exact entry_not_lt_le e x hc
      · exact hx z h'

theorem heap_inv_push (e : HeapEntry) (s : List HeapEntry) (hinv : heap_inv s)
    (he : e.1 = -e.2.2) : heap_inv (heap_push e s) := by
  refine ⟨pairwise_heap_push e s hinv.1, ?_⟩
  intro a ha
  rcases (mem_heap_push e a s).1 ha with h | h
  · rw [h]; exact he
  · exact hinv.2 a h

theorem heap_inv_step (top_n : ℕ) (s : List HeapEntry) (r : ℚ) (cnt : ℕ)
    (hinv : heap_inv s) : heap_inv (sol_step top_n s r cnt) := by
  by_cases hlen : s.length < top_n
  · unfold sol_step
    rw [if_pos hlen]
    exact heap_inv_push _ s hinv rfl
  · cases s with
    | nil => unfold sol_step; rw [if_neg hlen]; exact hinv
    | cons x xs =>
      rw [sol_step_cons top_n x xs r cnt hlen]
      by_cases hr : r < -x.1
      · rw [if_pos hr]
        exact heap_inv_push _ xs
          ⟨(List.pairwise_cons.1 hinv.1).2, fun e he => hinv.2 e (by simp [he])⟩ rfl
      · rw [if_neg hr]
        exact hinv

theorem sol_step_length_le (top_n : ℕ) (s : List HeapEntry) (r : ℚ) (cnt : ℕ)
    (hlen : s.length ≤ top_n) : (sol_step top_n s r cnt).length ≤ top_n := by
  by_cases h1 : s.length < top_n
  · unfold sol_step
    rw [if_pos h1, length_heap_push]
    exact h1
  · cases s with
    | nil => unfold sol_step; rw [if_neg h1]; exact hlen
    | cons x xs =>
      rw [sol_step_cons top_n x xs r cnt h1]
      by_cases hr : r < -x.1
      · rw [if_pos hr]
        unfold heap_replace
        rw [length_heap_push]
        simpa using hlen
      · rw [if_neg hr]
        exact hlen

theorem sol_run_inv (top_n : ℕ) (cands : List (Option ℚ)) :
    heap_inv (sol_run top_n cands).1 ∧ (sol_run top_n cands).1.length ≤ top_n := by
  suffices h : ∀ (cands : List (Option ℚ)) (st : List HeapEntry × ℕ),
      heap_inv st.1 → st.1.length ≤ top_n →
      heap_inv (cands.foldl (fun st c =>
        match c with
        | none => st
        | some r => (sol_step top_n st.1 r (st.2 + 1), st.2 + 1)) st).1 ∧
      (cands.foldl (fun st c =>
        match c with
        | none => st
        | some r => (sol_step top_n st.1 r (st.2 + 1), st.2 + 1)) st).1.length ≤ top_n by
    exact h cands ([], 0) ⟨by simp, by simp⟩ (by simp)
  intro cands
  induction cands with
  | nil => intro st h1 h2; exact ⟨h1, h2⟩
  | cons c rest ih =>
    intro st h1 h2
    cases c with
    | none => exact ih st h1 h2
    | some r =>
      exact ih _ (heap_inv_step top_n st.1 r (st.2 + 1) h1)
        (sol_step_length_le top_n st.1 r (st.2 + 1) h2)

/-- C7: throughout the run the retained-solution structure holds at most
`top_n` entries; once it holds exactly `top_n`, the heap root is a
worst-ranking retained solution and a new feasible candidate evicts it if
and only if the candidate's ranking cost is strictly lower (an equal or
worse candidate leaves the retained set unchanged); and the final output
is the retained ranking costs sorted ascending. -/
theorem C7_bounded_top_n_retention (top_n : ℕ) (cands : List (Option ℚ)) :
    ((sol_run top_n cands).1.length ≤ top_n)
    ∧ ((sol_run top_n cands).1.length = top_n → 0 < top_n →
        (∀ e ∈ (sol_run top_n cands).1,
          -e.1 ≤ worst_ranking (sol_run top_n cands).1)
        ∧ (∀ (r : ℚ) (cnt : ℕ), r < worst_ranking (sol_run top_n cands).1 →
            sol_step top_n (sol_run top_n cands).1 r cnt =
              heap_push (-r, cnt, r) (sol_run top_n cands).1.tail)
        ∧ (∀ (r : ℚ) (cnt : ℕ), ¬ r < worst_ranking (sol_run top_n cands).1 →
            sol_step top_n (sol_run top_n cands).1 r cnt =
              (sol_run top_n cands).1))
    ∧ (sol_final (sol_run top_n cands).1).Pairwise (fun a b => a ≤ b) := by
  obtain ⟨hinv, hlen⟩ := sol_run_inv top_n cands
  refine ⟨hlen, ?_, ?_⟩
  · intro hN hpos
    cases hs : (sol_run top_n cands).1 with
    | nil => rw [hs] at hN; rw [← hN] at hpos; exact absurd hpos (by simp)
    | cons x xs =>
      rw [hs] at hinv hN
      refine ⟨?_, ?_, ?_⟩
      · intro e he
        rcases List.mem_cons.1 he with h | h
        · rw [h]; exact le_refl _
        · have hle := (List.pairwise_cons.1 hinv.1).1 e h
          rcases hle with hlt | ⟨heq, _⟩
          · simp only [worst_ranking]
            linarith
          · simp only [worst_ranking, heq]
            exact le_refl _
      · intro r cnt hr
        simp only [worst_ranking] at hr
        rw [sol_step_cons top_n x xs r cnt (by rw [hN]; simp), if_pos hr]
        rfl
      · intro r cnt hr
        simp only [worst_ranking] at hr
        rw [sol_step_cons top_n x xs r cnt (by rw [hN]; simp), if_neg hr]
  · unfold sol_final
    have hsorted := pairwise_stable_sort (fun a b => decide ((-a.1 : ℚ) ≤ -b.1))
      (by
        intro a b c hab hbc
        simp only [decide_eq_true_eq] at *
        linarith)
      (by
        intro a b
        simp only [decide_eq_true_eq]
        exact le_total _ _)
      (sol_run top_n cands).1
    have hmem' : ∀ e ∈ stable_sort (fun a b => decide ((-a.1 : ℚ) ≤ -b.1))
        (sol_run top_n cands).1, e.1 = -e.2.2 := by
      intro e he
      exact hinv.2 e ((mem_stable_sort _ e _).1 he)
    rw [List.pairwise_map]
    refine List.Pairwise.imp_of_mem ?_ hsorted
    intro a b ha hb hab
    simp only [decide_eq_true_eq] at hab
    have hfa := hmem' a ha
    have hfb := hmem' b hb
    have ha2 : -a.1 = a.2.2 := by rw [hfa]; ring
    have hb2 : -b.1 = b.2.2 := by rw [hfb]; ring
    rw [← ha2, ← hb2]
    exact hab

/-- C7 witness: with `top_n = 2` and candidates `5, (infeasible), 3, 7, 4`
the run retains two solutions (worst ranking 4); a new candidate of
ranking 7/2 < 4 replaces the root. -/
theorem C7_bounded_top_n_retention_witness :
    (sol_run 2 c7_cands).1.length = 2
    ∧ (∀ e ∈ (sol_run 2 c7_cands).1, -e.1 ≤ worst_ranking (sol_run 2 c7_cands).1)
    ∧ sol_step 2 (sol_run 2 c7_cands).1 (7/2) 5 =
        heap_push (-(7/2), 5, 7/2) (sol_run 2 c7_cands).1.tail := by
  have hlen : (sol_run 2 c7_cands).1.length = 2 := by
    norm_num [sol_run, c7_cands, sol_step, heap_push, heap_replace, entry_lt,
      worst_ranking]
  have h := C7_bounded_top_n_retention 2 c7_cands
  have hB := h.2.1 hlen (by norm_num)
  refine ⟨hlen, hB.1, hB.2.1 (7/2) 5 ?_⟩
  norm_num [sol_run, c7_cands, sol_step, heap_push, heap_replace, entry_lt,
    worst_ranking]

end Esim
